import Mathlib

/-!
Verification development for the ClinicalManager FHIR server.

The definitions below are shallow embeddings of the Go source:
  * the storage engine for one (resourceType, id) slot
    (src/unnamed/part_009: Put, PostWithID, Delete, saveDeletionIntoHistory,
    History, generatePagingLinks, ConditionalPost),
  * the bundle processor helpers (src/unnamed/part_008: hasTempID,
    conditional-create staging, processProvenanceHeader),
  * the JSON <-> GoFHIR-BSON codec (src/fhir-master/models2/convert_to_bson.go,
    json_walker.go).

Machine integers are modelled as Nat/Int.  MongoDB collections are modelled as
explicit state: the current-version collection for a single id is an
`Option StoredDoc`, the previous-version (vermongo) collection a list of
records keyed by (_version, _deleted).  Each database write operation returns
the new state together with an `Except` result, so that "nothing was written"
is expressible on error paths.
-/

set_option linter.unusedVariables false
set_option linter.unreachableTactic false
set_option linter.unusedTactic false

namespace ClinicalManager

/-- strings.Contains for a single-character needle, evaluated on the
character list (the core String.contains does not reduce in the kernel). -/
def strContainsChar (s : String) (c : Char) : Bool :=
  s.data.contains c

/-- Character-list core of strings.HasPrefix. -/
def charsStartWith : List Char → List Char → Bool
  | [], _ => true
  | _ :: _, [] => false
  | a :: as, b :: bs => a == b && charsStartWith as bs

/-- strings.HasPrefix, evaluated on the character lists. -/
def strStartsWith (s pre : String) : Bool :=
  charsStartWith pre.data s.data

/-- strings.Split for a single-character separator, on character lists. -/
def splitOnChar (sep : Char) : List Char → List (List Char)
  | [] => [[]]
  | c :: rest =>
      let r := splitOnChar sep rest
      if c == sep then [] :: r
      else
        match r with
        | [] => [[c]]
        | h :: t => (c :: h) :: t

/-- strings.Split(s, sep) for a one-character separator. -/
def strSplit (s : String) (sep : Char) : List String :=
  (splitOnChar sep s.data).map (fun cs => String.mk cs)

/-- Errors surfaced by the data access layer (src/unnamed/part_008, lines 56-80:
ErrNotFound, ErrDeleted, ErrMultipleMatches, ErrConflict) plus a catch-all for
wrapped driver errors. -/
inductive DalError where
  | conflict (msg : String)
  | notFound
  | deleted
  | multipleMatches (msg : String)
  | other (msg : String)
deriving DecidableEq, Repr

/-- A document in the current-version collection of one id.  `versionId` is
the document's meta.versionId (stored by the code as a decimal string; the
model keeps the numeric value, `none` when the field is absent).  `body`
abstracts the rest of the document's content. -/
structure StoredDoc where
  versionId : Option Nat
  body : String
deriving DecidableEq, Repr

/-- A record of the previous-versions (vermongo) collection.  Its MongoDB _id
is the composite {_id: id, _version: version} for archived versions and
{_id: id, _version: version, _deleted: 1} for tombstones, so the key of a
record in this collection is the pair (version, deleted).  `doc` is the
archived body (none for tombstones, which only carry meta). -/
structure PrevRecord where
  version : Nat
  deleted : Bool
  doc : Option StoredDoc
deriving DecidableEq, Repr

/-- The two collections that hold a single (resourceType, id):
current-version slot plus previous-versions list. -/
structure Store where
  current : Option StoredDoc
  prev : List PrevRecord
deriving DecidableEq, Repr

/-- The empty store: the id has never been written. -/
def Store.empty : Store := ⟨none, []⟩

/-- Mirrors getVersionIdFromResource (part_009 lines 625-645) as used by Put:
the stored string form of meta.versionId, "" when absent. -/
def StoredDoc.versionIdStr (d : StoredDoc) : String :=
  match d.versionId with
  | some v => toString v
  | none => ""

/-- FindOneAndReplace with upsert on the previous-versions collection, filter
being the record's composite _id (part_009 lines 532-543 and 764-806): replace
the record with the same (version, deleted) key, or insert it. -/
def upsertPrev (r : PrevRecord) (l : List PrevRecord) : List PrevRecord :=
  if l.any (fun p => p.version == r.version && p.deleted == r.deleted) then
    l.map (fun p => if p.version == r.version && p.deleted == r.deleted then r else p)
  else
    l ++ [r]

/-- The atomic check-then-update filter of Put (part_009 lines 582-589):
{_id: id, meta.versionId: toString curVersionId}, or meta.versionId
exists:false when curVersionId = 0 ("cur doc won't actually have a versionId
field"). -/
def matchesVersionFilter (curVersionId : Nat) (d : StoredDoc) : Bool :=
  if curVersionId == 0 then d.versionId == none
  else d.versionId == some curVersionId

/-- The final replace of Put (part_009 lines 560-604).  With
`curVersionId = none` (no current doc was observed, or history disabled) it is
an upsert by _id whose ModifiedCount is returned; with `curVersionId = some v`
it is a ReplaceOne filtered on the observed versionId, and a ModifiedCount of
0 is reported as ErrConflict.  Returns the store (unchanged when nothing
matched) and, on success, the `updated` count. -/
def putReplaceStep (curVersionId : Option Nat) (newResource : StoredDoc) (s : Store) :
    Store × Except DalError Nat :=
  match curVersionId with
  | none =>
      let modified := if s.current.isSome then 1 else 0
      ({ s with current := some newResource }, .ok modified)
  | some curV =>
      match s.current with
      | some d =>
          if matchesVersionFilter curV d then
            ({ s with current := some newResource }, .ok 1)
          else
            (s, .error (.conflict "conflicting update"))
      | none => (s, .error (.conflict "conflicting update"))

/-- updateResourceMeta (part_009 lines 1215-1219): stamp the resource with the
new versionId (lastUpdated is outside this model). -/
def updateResourceMeta (resource : StoredDoc) (versionId : Nat) : StoredDoc :=
  { resource with versionId := some versionId }

/-- Shallow embedding of mongoSession.Put (part_009 lines 459-623) for a
single id.  Returns the possibly-updated store and, on success, `createdNew`.
Archival into the previous-versions collection uses `upsertPrev`; the final
replace uses `putReplaceStep`.  Races (duplicate key on the archival upsert)
cannot arise in this sequential, single-id model. -/
def Put (enableHistory : Bool) (conditionalVersionId : String) (resource : StoredDoc)
    (s : Store) : Store × Except DalError Bool :=
  if enableHistory = false then
    if conditionalVersionId ≠ "" then
      (s, .error (.other "If-Match specified for a conditional put, but version histories are disabled"))
    else
      let res := updateResourceMeta resource 1
      match putReplaceStep none res s with
      | (s1, .ok updated) => (s1, .ok (updated == 0))
      | (s1, .error e) => (s1, .error e)
  else
    match s.current with
    | none =>
        if conditionalVersionId ≠ "" then
          (s, .error (.conflict "If-Match specified for a resource that doesn't exist"))
        else
          let res := updateResourceMeta resource 1
          match putReplaceStep none res s with
          | (s1, .ok updated) => (s1, .ok (updated == 0))
          | (s1, .error e) => (s1, .error e)
    | some d =>
        let curVersionId : Nat := match d.versionId with | some v => v | none => 0
        let newVersionId : Nat := match d.versionId with | some v => v + 1 | none => 1
        if conditionalVersionId ≠ "" ∧ conditionalVersionId ≠ d.versionIdStr then
          (s, .error (.conflict "If-Match doesn't match current versionId"))
        else
          let s1 : Store := { s with prev := upsertPrev ⟨curVersionId, false, some d⟩ s.prev }
          let res := updateResourceMeta resource newVersionId
          match putReplaceStep (some curVersionId) res s1 with
          | (s2, .ok updated) => (s2, .ok (updated == 0))
          | (s2, .error e) => (s2, .error e)

/-- Shallow embedding of mongoSession.PostWithID (part_009 lines 434-457) for
a single id: InsertOne into the current collection; a pre-existing current
document makes the insert fail with a duplicate-key error. -/
def PostWithID (resource : StoredDoc) (s : Store) : Store × Except DalError Unit :=
  match s.current with
  | some _ => (s, .error (.other "duplicate key"))
  | none => ({ s with current := some (updateResourceMeta resource 1) }, .ok ())

/-- Shallow embedding of saveDeletionIntoHistory (part_009 lines 727-809):
archive the current document under its version, then upsert a tombstone
{_id, _version: newVersionId, _deleted: 1}.  Returns the tombstone's
versionId.  `.notFound` maps the mongo.ErrNoDocuments of the initial read. -/
def saveDeletionIntoHistory (s : Store) : Store × Except DalError Nat :=
  match s.current with
  | none => (s, .error .notFound)
  | some d =>
      let curVersionId : Nat := match d.versionId with | some v => v | none => 0
      let newVersionId : Nat := match d.versionId with | some v => v + 1 | none => 1
      let prev1 := upsertPrev ⟨curVersionId, false, some d⟩ s.prev
      let prev2 := upsertPrev ⟨newVersionId, true, none⟩ prev1
      ({ s with prev := prev2 }, .ok newVersionId)

/-- Shallow embedding of mongoSession.Delete (part_009 lines 680-725) for a
single id with history enabled: saveDeletionIntoHistory, then DeleteOne of the
current document (0 deletions map to ErrNotFound). -/
def Delete (enableHistory : Bool) (s : Store) : Store × Except DalError Nat :=
  if enableHistory then
    match saveDeletionIntoHistory s with
    | (s1, .error e) => (s1, .error e)
    | (s1, .ok newVersionId) =>
        match s1.current with
        | none => (s1, .error .notFound)
        | some _ => ({ s1 with current := none }, .ok newVersionId)
  else
    match s.current with
    | none => (s, .error .notFound)
    | some _ => ({ s with current := none }, .ok 0)

/-! Operation sequences on one id, used to state the versionId monotonicity
invariant (spec section 3, "versionId starts at 1 and strictly increases"). -/

/-- One accepted-or-rejected storage operation on a single id. -/
inductive StorageOp where
  | post (body : String)
  | put (body : String)
  | delete
deriving DecidableEq, Repr

/-- Runs one operation (history enabled, no If-Match) and reports the
versionId it assigned: a create assigns 1 (PostWithID stamps version 1), a put
assigns the new current document's versionId, a delete assigns the tombstone's
versionId. -/
def execOp (op : StorageOp) (s : Store) : Store × Except DalError Nat :=
  match op with
  | .post b =>
      match PostWithID ⟨none, b⟩ s with
      | (s1, .ok ()) => (s1, .ok 1)
      | (s1, .error e) => (s1, .error e)
  | .put b =>
      match Put true "" ⟨none, b⟩ s with
      | (s1, .ok _) =>
          (s1, .ok (match s1.current with
                    | some d => match d.versionId with | some v => v | none => 0
                    | none => 0))
      | (s1, .error e) => (s1, .error e)
  | .delete => Delete true s

/-- Runs a sequence of operations from a store; succeeds only when every
operation is accepted, returning the final store and the list of assigned
versionIds in order. -/
def execAll : List StorageOp → Store → Except DalError (Store × List Nat)
  | [], s => .ok (s, [])
  | op :: rest, s =>
      match execOp op s with
      | (_, .error e) => .error e
      | (s1, .ok v) =>
          match execAll rest s1 with
          | .error e => .error e
          | .ok (s2, vs) => .ok (s2, v :: vs)

/-! History (part_009 lines 917-1017). -/

/-- One entry of a history bundle: the request method recorded for the entry
and the resource body (none for deletions). -/
structure HistoryEntry where
  method : String
  resource : Option StoredDoc
deriving DecidableEq, Repr

/-- Insert a previous-version record into a list that is sorted by _version
descending (the mongo query sorts by {_id._version: -1}). -/
def insertByVersionDesc (r : PrevRecord) : List PrevRecord → List PrevRecord
  | [] => [r]
  | x :: xs => if r.version ≥ x.version then r :: x :: xs else x :: insertByVersionDesc r xs

/-- The previous-version records in the order the History query returns them:
sorted by _version descending. -/
def sortPrevDesc (l : List PrevRecord) : List PrevRecord :=
  l.foldr insertByVersionDesc []

/-- The records History iterates over, in order: the current version first
(read from the current collection and entered with method PUT), then all
previous-version records sorted newest first. -/
def histRecords (s : Store) : List PrevRecord :=
  (match s.current with
   | some d => [⟨(match d.versionId with | some v => v | none => 0), false, some d⟩]
   | none => []) ++ sortPrevDesc s.prev

/-- Converts one record into a history bundle entry (part_009 lines 976-988):
deleted records get request method DELETE and no resource, others method PUT
and their body. -/
def histEntryOfRecord (r : PrevRecord) : HistoryEntry :=
  if r.deleted then ⟨"DELETE", none⟩ else ⟨"PUT", r.doc⟩

/-- Rewrites the last (oldest) entry's request method to POST
(part_009 lines 1001-1003). -/
def rewriteLastToPost (l : List HistoryEntry) : List HistoryEntry :=
  match l with
  | [] => []
  | _ :: _ => l.dropLast ++ [⟨"POST", (l.getLast?.map (·.resource)).join⟩]

/-- A history bundle: type, total and entries. -/
structure HistoryBundle where
  type : String
  total : Nat
  entries : List HistoryEntry
deriving DecidableEq, Repr

/-- Shallow embedding of mongoSession.History (part_009 lines 917-1017) for a
single id: current version first, previous versions sorted newest first,
deletions as DELETE entries without a resource; NotFound when no entry exists;
the last entry's method is rewritten to POST; Total is the entry count. -/
def History (s : Store) : Except DalError HistoryBundle :=
  let entryList := (histRecords s).map histEntryOfRecord
  if entryList.length == 0 then
    .error .notFound
  else
    .ok { type := "history", total := entryList.length, entries := rewriteLastToPost entryList }

/-! Paging links (part_009 lines 1109-1205). -/

/-- One bundle paging link: its relation and the _offset/_count parameters
baked into its URL (none for the raw self link of queries that do not support
paging). -/
structure BundleLink where
  relation : String
  offset : Option Int
  count : Option Int
deriving DecidableEq, Repr

/-- Modelled from the spec: the default page size of the search compiler
(search.NewQueryOptions().Count, package search is not part of this corpus;
spec section 4.5 "Negative or missing values revert to defaults (count=100,
offset=0)"). -/
def defaultSearchCount : Int := 100

/-- The offset generatePagingLinks derives from the parsed _offset parameter
(part_009 lines 1113-1119): absent, unparsable or negative values become 0. -/
def effectiveOffset (pOffset : Option Int) : Int :=
  match pOffset with
  | some o => if o < 0 then 0 else o
  | none => 0

/-- The count generatePagingLinks derives from the parsed _count parameter
(part_009 lines 1120-1126): absent, unparsable or non-positive values revert
to the default page size. -/
def effectiveCount (pCount : Option Int) : Int :=
  match pCount with
  | some c => if c < 1 then defaultSearchCount else c
  | none => defaultSearchCount

/-- Shallow embedding of generatePagingLinks (part_009 lines 1109-1186).
`pOffset`/`pCount` are the parsed _offset/_count query parameters (none when
absent or unparsable, mirroring the ignored strconv.Atoi error). -/
def generatePagingLinks (countTotalResults : Bool) (supportsPaging : Bool)
    (pOffset pCount : Option Int) (total numResults : Int) : List BundleLink :=
  let offset : Int := effectiveOffset pOffset
  let count : Int := effectiveCount pCount
  if supportsPaging = false then
    [⟨"self", none, none⟩]
  else
    let selfFirst := [⟨"self", some offset, some count⟩, ⟨"first", some 0, some count⟩]
    let previous :=
      if offset > 0 then
        let prevOffset := if offset - count < 0 then 0 else offset - count
        [⟨"previous", some prevOffset, some (offset - prevOffset)⟩]
      else []
    let tail :=
      if countTotalResults then
        let next :=
          if total > offset + count then [⟨"next", some (offset + count), some count⟩]
          else []
        let remainder0 := (total - offset).tmod count
        let remainder := if total < offset then 0 else remainder0
        let newOffset :=
          if remainder == 0 ∧ total > count then total - count else total - remainder
        next ++ [⟨"last", some newOffset, some count⟩]
      else
        if numResults == count then [⟨"next", some (offset + count), some count⟩]
        else []
    selfFirst ++ previous ++ tail

/-- True when a link with the given relation is present. -/
def hasLink (links : List BundleLink) (relation : String) : Bool :=
  links.any (fun l => l.relation == relation)

/-! hasTempID (part_008 lines 1006-1019): the regular expression
([=,])(urn:uuid:|urn%3Auuid%3A)[0-9a-f]XXX8-[0-9a-f]XXX4-[0-9a-f]XXX4-[0-9a-f]XXX4-[0-9a-f]XXX12(&|,|$)
(XXXn standing for a repetition count) implemented as an executable matcher
over the character list. -/

/-- The character class [0-9a-f]. -/
def isHexLower (c : Char) : Bool :=
  (decide ('0' ≤ c) && decide (c ≤ '9')) || (decide ('a' ≤ c) && decide (c ≤ 'f'))

/-- Consume exactly `n` characters of the class [0-9a-f]. -/
def consumeHex : Nat → List Char → Option (List Char)
  | 0, l => some l
  | n + 1, [] => none
  | n + 1, c :: rest => if isHexLower c then consumeHex n rest else none

/-- Consume the literal `lit` from the front of the input. -/
def consumeLit : List Char → List Char → Option (List Char)
  | [], l => some l
  | _ :: _, [] => none
  | a :: as, c :: rest => if c = a then consumeLit as rest else none

/-- Consume a lowercase-hex UUID: 8-4-4-4-12 hex digits separated by dashes. -/
def consumeUuid (l : List Char) : Option (List Char) :=
  (consumeHex 8 l).bind (fun l =>
  (consumeLit ['-'] l).bind (fun l =>
  (consumeHex 4 l).bind (fun l =>
  (consumeLit ['-'] l).bind (fun l =>
  (consumeHex 4 l).bind (fun l =>
  (consumeLit ['-'] l).bind (fun l =>
  (consumeHex 4 l).bind (fun l =>
  (consumeLit ['-'] l).bind (fun l =>
  consumeHex 12 l))))))))

/-- Does a match of the tempIdRegexp start exactly at the head of `l`?  The
head must be the captured [=,], followed by a urn:uuid: or urn%3Auuid%3A
marker, a UUID, and then &, a comma, or the end of the input. -/
def tempIdAt (l : List Char) : Bool :=
  match l with
  | [] => false
  | c :: rest =>
      (c = '=' || c = ',') &&
      (match (consumeLit "urn:uuid:".data rest).orElse
               (fun _ => consumeLit "urn%3Auuid%3A".data rest) with
       | none => false
       | some afterMarker =>
           match consumeUuid afterMarker with
           | none => false
           | some [] => true
           | some (t :: _) => t = '&' || t = ',')

/-- Scan every position of the input for a match start. -/
def hasTempIDChars : List Char → Bool
  | [] => false
  | c :: rest => tempIdAt (c :: rest) || hasTempIDChars rest

/-- Shallow embedding of hasTempID (part_008 lines 1006-1019): true iff the
tempIdRegexp matches somewhere in the string. -/
def hasTempID (str : String) : Bool :=
  hasTempIDChars str.data

/-! The JSON <-> GoFHIR-BSON codec
(src/fhir-master/models2/convert_to_bson.go and json_walker.go).

JSON documents are modelled as trees whose numbers keep their literal text
(jsonparser hands the converter raw bytes).  BSON values mirror the Go
interface values the converter builds.  Two Go values are kept as opaque
tokens carrying the literal they were parsed from, because no claim depends
on their numeric/temporal value and they are either discarded or re-printed
on egress: float64 range bounds (`double`) and time.Time values (`instant`). -/

mutual
inductive Json where
  | str (s : String)
  | num (lit : String)
  | bool (b : Bool)
  | null
  | obj (fields : JFields)
  | arr (elems : JElems)
deriving Repr, DecidableEq
inductive JFields where
  | nil
  | cons (k : String) (v : Json) (rest : JFields)
deriving Repr, DecidableEq
inductive JElems where
  | nil
  | cons (v : Json) (rest : JElems)
deriving Repr, DecidableEq
end

mutual
inductive Bson where
  | str (s : String)
  | int (n : Int)
  | double (token : String)
  | instant (token : String)
  | bool (b : Bool)
  | null
  | doc (fields : BFields)
  | arr (elems : BElems)
deriving Repr, DecidableEq
inductive BFields where
  | nil
  | cons (k : String) (v : Bson) (rest : BFields)
deriving Repr, DecidableEq
inductive BElems where
  | nil
  | cons (v : Bson) (rest : BElems)
deriving Repr, DecidableEq
end

/-- First value of a JSON object key (jsonparser.Get semantics). -/
def JFields.lookup (k : String) : JFields → Option Json
  | .nil => none
  | .cons k2 v rest => if k2 == k then some v else JFields.lookup k rest

/-- jsonparser.GetString: the key must exist and hold a string. -/
def JFields.getString (k : String) (f : JFields) : Option String :=
  match f.lookup k with
  | some (.str s) => some s
  | _ => none

/-- A field list collected by the ingest loops, converted to the constructor
form. -/
def listToBFields : List (String × Bson) → BFields
  | [] => .nil
  | (k, v) :: rest => .cons k v (listToBFields rest)

/-- Keys of a BSON document in order. -/
def BFields.keys : BFields → List String
  | .nil => []
  | .cons k _ rest => k :: BFields.keys rest

/-- The FHIR type registry (fhir_types.go is generated from the FHIR
definitions and is not part of this corpus; the registry is a parameter
of the codec: a map from dotted element path to type name). -/
abbrev TypeRegistry := String → Option String

/-- positionInfo (src/unnamed/part_015): the FHIR element being parsed, the
deferred-resource-type flag for arrays of `Resource`, and the debug path
(which the reference handler also consults for the `Bundle.` test). -/
structure PositionInfo where
  element : String
  needToReadResourceType : Bool
  pathHere : String
deriving DecidableEq, Repr

def PositionInfo.atReference (p : PositionInfo) : Bool := p.element == "Reference"
def PositionInfo.atExtension (p : PositionInfo) : Bool := p.element == "Extension"
def PositionInfo.atDecimal (p : PositionInfo) : Bool := p.element == "decimal"
def PositionInfo.atDate (p : PositionInfo) : Bool := p.element == "date" || p.element == "dateTime"
def PositionInfo.atInstant (p : PositionInfo) : Bool := p.element == "instant"

/-- positionInfo.__downTo (part_015 lines 48-119).  Schema panics are modelled
as errors (a panic rejects the request). -/
def PositionInfo.downTo (reg : TypeRegistry) (p : PositionInfo) (key : String) (valueJson : Json) :
    Except String PositionInfo := do
  if p.needToReadResourceType then
    throw "error parsing JSON: need to acquire resource type"
  let nextPath := p.pathHere ++ "." ++ key
  if key == "resourceType" && !(strContainsChar p.element '.') then
    return ⟨"string", false, nextPath⟩
  if strStartsWith key "_" then
    return ⟨"_", false, nextPath⟩
  let nextElement0 := p.element ++ "." ++ key
  match reg nextElement0 with
  | none => throw ("failed to get type for " ++ nextElement0)
  | some t =>
    let nextElement := if t != "BackboneElement" && t != "Element" then t else nextElement0
    if nextElement == "Resource" then
      match valueJson with
      | .arr _ => return ⟨nextElement, true, nextPath⟩
      | .obj fields =>
          match fields.getString "resourceType" with
          | none => throw ("failed to get resourceType of nested resource " ++ key)
          | some resourceType =>
              if (reg (resourceType ++ ".id")).isSome then
                return ⟨resourceType, false, nextPath ++ "(" ++ resourceType ++ ")"⟩
              else
                throw ("failed to get type for contained resource " ++ resourceType)
      | _ => throw ("failed to get JSON of nested resource: neither object nor array")
    else
      return ⟨nextElement, false, nextPath⟩

/-- positionInfo.__intoArray (part_015 lines 125-149). -/
def PositionInfo.intoArray (reg : TypeRegistry) (p : PositionInfo) (valueJson : Json) :
    Except String PositionInfo := do
  let nextPath := p.pathHere ++ ".[]"
  if p.needToReadResourceType then
    match valueJson with
    | .obj fields =>
        match fields.getString "resourceType" with
        | none => throw "failed to get resourceType of array resource"
        | some resourceType =>
            if (reg (resourceType ++ ".id")).isSome then
              return ⟨resourceType, false, nextPath ++ "(" ++ resourceType ++ ")"⟩
            else
              throw ("failed to get type for contained resource at array " ++ resourceType)
    | _ => throw "failed to get resourceType of array resource"
  else
    return ⟨p.element, false, nextPath⟩

/-- jsonparser.GetInt as used by convertNumberValue: an optional minus sign
followed by decimal digits, within the int64 range. -/
def goParseInt (lit : String) : Option Int :=
  let core : List Char → Option Nat := fun ds =>
    if ds.isEmpty || !ds.all Char.isDigit then none
    else some (ds.foldl (fun acc c => 10 * acc + (c.toNat - 48)) 0)
  let v : Option Int :=
    match lit.data with
    | '-' :: rest => (core rest).map (fun n => -(n : Int))
    | l => (core l).map (fun n => (n : Int))
  match v with
  | some n => if n < -(2 ^ 63) || n ≥ 2 ^ 63 then none else some n
  | none => none

/-- The sibling index fields the converter adds after a `reference` field
(addToBSONdoc, convert_to_bson.go lines 92-144), computed from the (already
transformed) reference text and the position's debug path.  The Go code
appends reference__external after the id/type branch; here it is written into
each successful branch directly.  Errors reject the document. -/
def referenceSiblings (reg : TypeRegistry) (pathHere : String) (reference : String) :
    Except String (List (String × Bson)) :=
  let splitURL := strSplit reference '/'
  let components := splitURL.length
  let external := strStartsWith reference "http"
  if 2 ≤ components then
    let lastComponent := splitURL.getD (components - 1) ""
    let secondLastComponent := splitURL.getD (components - 2) ""
    if secondLastComponent == "_history" then
      if components < 4 then
        .error ("invalid reference (less than 4 components): " ++ reference)
      else
        let referenceID := splitURL.getD (components - 3) ""
        let typeStr := splitURL.getD (components - 4) ""
        if (reg (typeStr ++ ".id")).isSome then
          .ok [("reference__id", .str referenceID), ("reference__type", .str typeStr),
               ("reference__external", .bool external)]
        else
          .error ("invalid reference (type not found): " ++ reference)
    else
      let referenceID := lastComponent
      let typeStr := secondLastComponent
      if (reg (typeStr ++ ".id")).isSome then
        .ok [("reference__id", .str referenceID), ("reference__type", .str typeStr),
             ("reference__external", .bool external)]
      else
        .error ("invalid reference (type not found): " ++ reference)
  else if strStartsWith reference "#" then
    .ok [("reference__external", .bool external)]
  else if strStartsWith reference "urn:uuid:" && strStartsWith pathHere "Bundle." then
    .ok [("reference__external", .bool external)]
  else
    .error ("invalid reference (less than 2 components): " ++ reference)

/-- The reference-transformation map supplied by the bundle processor
(empty outside transactions). -/
abbrev RefsMap := String → Option String

/-- convertInstant (convert_to_bson.go lines 317-324): time.Parse(RFC3339).
The parse failure cases of the Go time package are not modelled (no claim
depends on instant rejection); the resulting time.Time is kept as an opaque
token carrying the literal. -/
def convertInstant (s : String) : Except String Bson :=
  .ok (.instant s)

/-- convertDateValue (convert_to_bson.go lines 326-340): utils.ParseDate
(package utils is not part of this corpus) computes a time range; its
failure cases are not modelled.  The range bounds are opaque time tokens;
the exact text is stored under __strDate. -/
def convertDateValue (s : String) : Except String Bson :=
  .ok (.doc (.cons "__from" (.instant ("dateFrom:" ++ s))
       (.cons "__to" (.instant ("dateTo:" ++ s))
       (.cons "__strDate" (.str s) .nil))))

/-- convertNumberValue (convert_to_bson.go lines 344-391).  At decimal
positions the original text is stored under __strNum together with a numeric
form and a range (opaque float tokens, discarded on egress); elsewhere the
literal must be a plain integer. -/
def convertNumberValue (pos : PositionInfo) (lit : String) : Except String Bson :=
  if pos.atDecimal then
    let numOk : Bool :=
      if strContainsChar lit '.' then true  -- jsonparser.GetFloat accepts any JSON number literal
      else (goParseInt lit).isSome
    if !numOk then
      throw ("GetFloat or GetInt failed for " ++ lit)
    else
      let numValue : Bson :=
        if strContainsChar lit '.' then .double ("float:" ++ lit)
        else match goParseInt lit with
             | some n => .int n
             | none => .null
      .ok (.doc (.cons "__from" (.double ("numFrom:" ++ lit))
           (.cons "__to" (.double ("numTo:" ++ lit))
           (.cons "__num" numValue
           (.cons "__strNum" (.str lit) .nil)))))
  else
    if strContainsChar lit '.' then
      throw ("non-decimal number has a decimal point: " ++ lit)
    else
      match goParseInt lit with
      | none => throw ("GetInt failed for " ++ lit)
      | some n => .ok (.int n)  -- int32 vs int64 storage marshals identically on egress

/-- List-of-values view converted back into the constructor form. -/
def listToBElems (l : List Bson) : BElems :=
  match l with
  | [] => .nil
  | v :: rest => .cons v (listToBElems rest)

mutual
/-- Structural size of a JSON value, used as the codec's termination measure. -/
def jsonMeasure : Json → Nat
  | .str _ => 1
  | .num _ => 1
  | .bool _ => 1
  | .null => 1
  | .obj f => 1 + jfieldsMeasure f
  | .arr e => 1 + jelemsMeasure e
/-- Structural size of a JSON object body. -/
def jfieldsMeasure : JFields → Nat
  | .nil => 0
  | .cons _ v rest => 1 + jsonMeasure v + jfieldsMeasure rest
/-- Structural size of a JSON array body. -/
def jelemsMeasure : JElems → Nat
  | .nil => 0
  | .cons v rest => 1 + jsonMeasure v + jelemsMeasure rest
end

/-- The placement and reference-indexing part of addToBSONdoc
(convert_to_bson.go lines 68-147), applied to the already-converted value:
id is renamed _id and put first, _id is renamed __id; after a `reference` key
the transformation map is applied (updating the just-stored value) and the
derived reference__id/reference__type/reference__external siblings are
appended.  addToBSONdoc itself is the body of the ObjectEach loops below
(its convertValue call appears at the call sites so that the recursion stays
structural). -/
def placeAndIndexField (reg : TypeRegistry) (refsMap : RefsMap) (pos : PositionInfo)
    (key : String) (value : Json) (valueBson : Bson) (output : List (String × Bson)) :
    Except String (List (String × Bson)) := do
  let bsonKey := if key == "id" then "_id" else if key == "_id" then "__id" else key
  let putFirst := key == "id"
  let output1 := if putFirst then (bsonKey, valueBson) :: output else output ++ [(bsonKey, valueBson)]
  if pos.atReference && key == "reference" then
    let reference0 := match value with | .str s => s | _ => ""
    let reference := (refsMap reference0).getD reference0
    let output2 :=
      if (refsMap reference0).isSome then
        output1.dropLast ++ [(bsonKey, Bson.str reference)]
      else output1
    let sibs ← referenceSiblings reg pos.pathHere reference
    return output2 ++ sibs
  else
    return output1

mutual

/-- The fold of jsonparser.ObjectEach with addToBSONdoc over an object
(convert_to_bson.go lines 45-51 and 165-172): each key/value is classified by
downTo, converted, and placed by placeAndIndexField. -/
def ingestFields (reg : TypeRegistry) (refsMap : RefsMap) (pos : PositionInfo)
    (fields : JFields) (output : List (String × Bson)) :
    Except String (List (String × Bson)) :=
  match fields with
  | .nil => .ok output
  | .cons k v rest =>
      match pos.downTo reg k v with
      | .error e => .error e
      | .ok nextPos =>
          match convertValue reg refsMap nextPos v with
          | .error e => .error e
          | .ok valueBson =>
              match placeAndIndexField reg refsMap pos k v valueBson output with
              | .error e => .error e
              | .ok output1 => ingestFields reg refsMap pos rest output1
termination_by structural fields

/-- addToBSONarray (convert_to_bson.go lines 149-157) folded over an array. -/
def ingestElems (reg : TypeRegistry) (refsMap : RefsMap) (pos : PositionInfo)
    (elems : JElems) (output : List Bson) : Except String (List Bson) :=
  match elems with
  | .nil => .ok output
  | .cons v rest =>
      match pos.intoArray reg v with
      | .error e => .error e
      | .ok nextPos =>
          match convertValue reg refsMap nextPos v with
          | .error e => .error e
          | .ok valueBson => ingestElems reg refsMap pos rest (output ++ [valueBson])
termination_by structural elems

/-- convertValue (convert_to_bson.go lines 159-250). -/
def convertValue (reg : TypeRegistry) (refsMap : RefsMap) (pos : PositionInfo)
    (value : Json) : Except String Bson :=
  match value with
  | .obj fields =>
      match ingestFields reg refsMap pos fields [] with
      | .error e => .error e
      | .ok subDoc => .ok (.doc (listToBFields subDoc))
  | .arr elems =>
      if pos.atExtension then
        match convertExtensionArray reg refsMap pos elems [] with
        | .error e => .error e
        | .ok arr => .ok (.arr (listToBElems arr))
      else
        match ingestElems reg refsMap pos elems [] with
        | .error e => .error e
        | .ok arr => .ok (.arr (listToBElems arr))
  | .str s =>
      if pos.atDate then convertDateValue s
      else if pos.atInstant then convertInstant s
      else .ok (.str s)
  | .null => .ok .null
  | .bool b => .ok (.bool b)
  | .num lit => convertNumberValue pos lit
termination_by structural value

/-- convertExtensionArray (convert_to_bson.go lines 252-315): each extension
object has its url promoted to a key; null elements are stored as nil. -/
def convertExtensionArray (reg : TypeRegistry) (refsMap : RefsMap) (pos : PositionInfo)
    (elems : JElems) (output : List Bson) : Except String (List Bson) :=
  match elems with
  | .nil => .ok output
  | .cons v rest =>
      match v with
      | .null => convertExtensionArray reg refsMap pos rest (output ++ [.null])
      | .obj fields =>
          match fields.getString "url" with
          | none => .error "failed to get url"
          | some url =>
              match ingestExtensionFields reg refsMap pos fields [] with
              | .error e => .error e
              | .ok newChild =>
                  let parent := Bson.doc (.cons url (.doc (listToBFields newChild)) .nil)
                  convertExtensionArray reg refsMap pos rest (output ++ [parent])
      | _ => .error "getExtensionArray: element is not an object"
termination_by structural elems

/-- The inner ObjectEach of convertExtensionArray (convert_to_bson.go lines
279-292): every field except url goes through the addToBSONdoc body at the
extension array position. -/
def ingestExtensionFields (reg : TypeRegistry) (refsMap : RefsMap) (pos : PositionInfo)
    (fields : JFields) (output : List (String × Bson)) :
    Except String (List (String × Bson)) :=
  match fields with
  | .nil => .ok output
  | .cons k v rest =>
      if k == "url" then ingestExtensionFields reg refsMap pos rest output
      else
        match pos.downTo reg k v with
        | .error e => .error e
        | .ok nextPos =>
            match convertValue reg refsMap nextPos v with
            | .error e => .error e
            | .ok valueBson =>
                match placeAndIndexField reg refsMap pos k v valueBson output with
                | .error e => .error e
                | .ok output1 => ingestExtensionFields reg refsMap pos rest output1
termination_by structural fields

end

/-- ConvertJsonToGoFhirBSON (convert_to_bson.go lines 32-66) with field
encryption disabled (encryptBSON is the identity unless PatientDetails
encryption is enabled for a Patient resource; the AES path is not modelled). -/
def ConvertJsonToGoFhirBSON (reg : TypeRegistry) (refsMap : RefsMap)
    (encryptPatientDetails : Bool) (json : Json) : Except String BFields := do
  match json with
  | .obj fields =>
      match fields.getString "resourceType" with
      | none => throw "ConvertJsonToGoFhirBSON: failed to get resourceType"
      | some resourceType => do
          let pos : PositionInfo := ⟨resourceType, false, resourceType⟩
          let root ← ingestFields reg refsMap pos fields []
          if encryptPatientDetails && resourceType == "Patient" then
            throw "encryptBSON: AES-GCM encryption not modelled"
          else
            return listToBFields root
  | _ => throw "ConvertJsonToGoFhirBSON: failed to get resourceType"

/-! Egress: ConvertGoFhirBSONToJSON (convert_to_bson.go lines 408-752). -/

/-- docIncluded (convert_to_bson.go lines 750-752). -/
def docIncluded (key : String) : Bool :=
  strStartsWith key "_included" || strStartsWith key "_revIncluded"

mutual
/-- Structural size of a BSON value, used as the egress termination measure. -/
def bsonMeasure : Bson → Nat
  | .str _ => 1
  | .int _ => 1
  | .double _ => 1
  | .instant _ => 1
  | .bool _ => 1
  | .null => 1
  | .doc f => 1 + bfieldsMeasure f
  | .arr e => 1 + belemsMeasure e
/-- Structural size of a BSON document body. -/
def bfieldsMeasure : BFields → Nat
  | .nil => 0
  | .cons _ v rest => 1 + bsonMeasure v + bfieldsMeasure rest
/-- Structural size of a BSON array body. -/
def belemsMeasure : BElems → Nat
  | .nil => 0
  | .cons v rest => 1 + bsonMeasure v + belemsMeasure rest
end

/-- The first scan of processDocument (convert_to_bson.go lines 471-528):
walk the document's top-level fields; a __strNum or __strDate field makes the
whole document collapse to the preserved literal; `time` and `precision`
fields (legacy sub-documents of previous GoFHIR versions) and the presence of
other fields are tracked in the accumulator (oldTime, oldPrecision,
otherFields).  The marshalled form of a legacy time.Time value is its opaque
token. -/
def scanSpecialKeys : BFields → (String × String × Bool) →
    Except String (Option Json × (String × String × Bool))
  | .nil, acc => .ok (none, acc)
  | .cons k v rest, (t, p, o) =>
      if k == "__strNum" then
        match v with
        | .str s => .ok (some (.num s), (t, p, o))
        | _ => .error "Error loading BSON: __strNum element that is not a string"
      else if k == "__strDate" then
        match v with
        | .str s => .ok (some (.str s), (t, p, o))
        | _ => .error "Error loading BSON: __strDate element that is not a string"
      else if k == "time" then
        match v with
        | .instant tok => scanSpecialKeys rest (tok, p, o)
        | _ => scanSpecialKeys rest (t, p, o)
      else if k == "precision" then
        match v with
        | .str s => scanSpecialKeys rest (t, s, o)
        | _ => scanSpecialKeys rest (t, p, o)
      else
        scanSpecialKeys rest (t, p, true)

/-- decryptBSON (encryption.go lines 178-260) restricted to the cases this
model covers: documents whose __gofhirEncryptedBSON field is absent or an
empty string are left untouched; a non-string value is an error; actual
AES-GCM decryption is not modelled (theorems about egress therefore cover
unencrypted documents). -/
def decryptBSONCheck : BFields → Except String Unit
  | .nil => .ok ()
  | .cons k v rest =>
      if k == "__gofhirEncryptedBSON" then
        match v with
        | .str s =>
            if s == "" then decryptBSONCheck rest
            else .error "decryptBSON: AES-GCM decryption not modelled"
        | _ => .error "__gofhirEncryptedBSON not a string"
      else if k == "__gofhirEncryptionKeyId" then
        match v with
        | .str _ => decryptBSONCheck rest
        | _ => .error "__gofhirEncryptionKeyId not a string"
      else decryptBSONCheck rest

mutual

/-- The emission loop of processDocument (convert_to_bson.go lines 530-583):
reference__id/reference__type/reference__external, _included*/_revIncluded*
and _lookup* fields are skipped; _id is renamed back to id and __id to _id;
extension and modifierExtension values go through the extension reflattening. -/
def emitFields (fields : BFields) : Except String JFields :=
  match fields with
  | .nil => .ok .nil
  | .cons k v rest =>
      if k == "reference__id" || k == "reference__type" || k == "reference__external" then
        emitFields rest
      else if docIncluded k then
        emitFields rest
      else if strStartsWith k "_lookup" then
        emitFields rest
      else if k == "extension" || k == "modifierExtension" then
        match processExtensionsArray v with
        | .error e => .error e
        | .ok j =>
            match emitFields rest with
            | .error e => .error e
            | .ok restJ => .ok (.cons k j restJ)
      else
        let bsonKey := if k == "_id" then "id" else if k == "__id" then "_id" else k
        match processValue v with
        | .error e => .error e
        | .ok j =>
            match emitFields rest with
            | .error e => .error e
            | .ok restJ => .ok (.cons bsonKey j restJ)
termination_by structural fields

/-- processValue (convert_to_bson.go lines 586-654).  Numeric and temporal
values re-print their opaque token (their exact printed text is not relied
upon by any theorem).  The .doc case is processDocument (convert_to_bson.go
lines 467-584) with its body written out so the recursion stays structural:
collapse __strNum and __strDate documents to their literal, handle the legacy
time/precision pair, otherwise emit the object. -/
def processValue (value : Bson) : Except String Json :=
  match value with
  | .str s => .ok (.str s)
  | .int n => .ok (.num (toString n))
  | .double tok => .ok (.num tok)
  | .instant tok => .ok (.str tok)
  | .bool b => .ok (.bool b)
  | .null => .ok .null
  | .doc f =>
      match scanSpecialKeys f ("", "", false) with
      | .error e => .error e
      | .ok (some early, _) => .ok early
      | .ok (none, (oldTime, oldPrecision, otherFields)) =>
          if oldTime != "" && oldPrecision != "" && otherFields == false then
            .ok (.str oldTime)
          else
            match emitFields f with
            | .error e => .error e
            | .ok fields => .ok (.obj fields)
  | .arr a =>
      match processArray a with
      | .error e => .error e
      | .ok es => .ok (.arr es)
termination_by structural value

/-- processArray (convert_to_bson.go lines 656-676): nil elements print as
null, others via processValue. -/
def processArray (elems : BElems) : Except String JElems :=
  match elems with
  | .nil => .ok .nil
  | .cons v rest =>
      match processValue v with
      | .error e => .error e
      | .ok j =>
          match processArray rest with
          | .error e => .error e
          | .ok restJ => .ok (.cons j restJ)
termination_by structural elems

/-- processExtensionsArray (convert_to_bson.go lines 678-748): rebuild each
extension object by demoting its promoted url key back to a url field and
re-processing the reconstructed document.  A nil value prints as null; a nil
element hits the default branch of the element type switch and is an error. -/
def processExtensionsArray (value : Bson) : Except String Json :=
  match value with
  | .null => .ok .null
  | .arr a =>
      match processExtensionElems a with
      | .error e => .error e
      | .ok es => .ok (.arr es)
  | _ => .error "processExtensionsArray: value of unexpected type"
termination_by structural value

/-- The element loop of processExtensionsArray.  The code calls
processDocument on the reconstructed document (url field first, then the
sub-document's fields); that call is written out here with the url field's
scan contribution pre-computed (a url field never matches a special key and
always sets otherFields), so that the recursion stays structural — theorem
processDocument_reconstructed below proves the two forms equal. -/
def processExtensionElems (elems : BElems) : Except String JElems :=
  match elems with
  | .nil => .ok .nil
  | .cons (.doc (.cons url (.doc subsub) .nil)) rest =>
      let conv : Except String Json :=
        match scanSpecialKeys subsub ("", "", true) with
        | .error e => .error e
        | .ok (some early, _) => .ok early
        | .ok (none, _) =>
            match emitFields subsub with
            | .error e => .error e
            | .ok restJ => .ok (.obj (.cons "url" (.str url) restJ))
      match conv with
      | .error e => .error e
      | .ok j =>
          match processExtensionElems rest with
          | .error e => .error e
          | .ok restJ => .ok (.cons j restJ)
  | .cons (.doc (.cons _ _ .nil)) _ => .error "processExtensionsArray: sub-document of unexpected type"
  | .cons (.doc _) _ => .error "processExtensionsArray: element of unexpected length"
  | .cons _ _ => .error "processExtensionsArray: element of unexpected type"
termination_by structural elems

/-- processIncludedDocuments (convert_to_bson.go lines 434-465) over the
top-level fields.  A `none` result models the code's quirk of returning
(nil, nil) when a nested _included document is encountered
(errors.Wrapf(nil, ...) is nil, so the scan silently yields no documents). -/
def processIncludedFields (fields : BFields) : Except String (Option (List Json)) :=
  match fields with
  | .nil => .ok (some [])
  | .cons k v rest =>
      if docIncluded k then
        match v with
        | .arr a =>
            match processIncludedElems a with
            | .error e => .error e
            | .ok none => .ok none
            | .ok (some docs) =>
                match processIncludedFields rest with
                | .error e => .error e
                | .ok none => .ok none
                | .ok (some more) => .ok (some (docs ++ more))
        | _ => .error "panic: _included value is not an array"
      else processIncludedFields rest
termination_by structural fields

/-- The element loop of processIncludedDocuments: each document element is
converted by the full egress converter (ConvertGoFhirBSONToJSON, written out
so the recursion stays structural — theorem convertGoFhirBSONToJSON_elem
below proves the two forms equal); non-document elements degrade to the empty
document, mirroring the unmatched type switch. -/
def processIncludedElems (elems : BElems) : Except String (Option (List Json)) :=
  match elems with
  | .nil => .ok (some [])
  | .cons (.doc ff) rest =>
      let conv : Except String (Json × List Json) :=
        match decryptBSONCheck ff with
        | .error e => .error e
        | .ok () =>
            match processIncludedFields ff with
            | .error e => .error e
            | .ok included =>
                match processValue (.doc ff) with
                | .error e => .error e
                | .ok j => .ok (j, included.getD [])
      match conv with
      | .error e => .error e
      | .ok (j, nested) =>
          if nested.length > 0 then .ok none
          else
            match processIncludedElems rest with
            | .error e => .error e
            | .ok none => .ok none
            | .ok (some more) => .ok (some (j :: more))
  | .cons _ rest =>
      match processIncludedElems rest with
      | .error e => .error e
      | .ok none => .ok none
      | .ok (some more) => .ok (some (Json.obj .nil :: more))
termination_by structural elems

end

/-- processDocument (convert_to_bson.go lines 467-584) as a standalone entry
point: identical to the .doc case of processValue. -/
def processDocument (d : BFields) : Except String Json :=
  processValue (.doc d)

/-- ConvertGoFhirBSONToJSON (convert_to_bson.go lines 408-432): decrypt
(identity for unencrypted documents), extract the _included/_revIncluded
satellite documents, then emit the main document. -/
def ConvertGoFhirBSONToJSON (d : BFields) : Except String (Json × List Json) :=
  match decryptBSONCheck d with
  | .error e => .error e
  | .ok () =>
      match processIncludedFields d with
      | .error e => .error e
      | .ok included =>
          match processDocument d with
          | .error e => .error e
          | .ok j => .ok (j, included.getD [])

/-- The internal derived keys that claim C10 says are never emitted. -/
def strippedKey (k : String) : Bool :=
  k == "reference__id" || k == "reference__type" || k == "reference__external" ||
  docIncluded k || strStartsWith k "_lookup"

mutual
/-- No object key anywhere in the JSON tree is one of the stripped keys. -/
def jsonNoStripped : Json → Bool
  | .obj f => jfieldsNoStripped f
  | .arr e => jelemsNoStripped e
  | _ => true
/-- Key check over an object body. -/
def jfieldsNoStripped : JFields → Bool
  | .nil => true
  | .cons k v rest => !strippedKey k && jsonNoStripped v && jfieldsNoStripped rest
/-- Key check over an array body. -/
def jelemsNoStripped : JElems → Bool
  | .nil => true
  | .cons v rest => jsonNoStripped v && jelemsNoStripped rest
end

/-! The bundle processor's conditional-create staging and X-Provenance
handling (src/unnamed/part_008). -/

/-- A resource as the bundle processor sees it. -/
structure BundleResource where
  resourceType : String
  id : String
  versionId : Option Nat
  body : String
deriving DecidableEq, Repr

/-- One resource type's current-version collection, keyed by id. -/
abbrev Database := List (String × BundleResource)

/-- FindOne by _id. -/
def dbGet (db : Database) (id : String) : Option BundleResource :=
  (db.find? (fun p => p.1 == id)).map (·.2)

/-- PostWithID (part_009 lines 434-457) on the multi-resource database:
SetId, stamp versionId 1, InsertOne (duplicate id is an insert error).
Returns the stored (mutated) resource. -/
def dalPostWithID (id : String) (r : BundleResource) (db : Database) :
    Database × Except DalError BundleResource :=
  match dbGet db id with
  | some _ => (db, .error (.other "duplicate key"))
  | none =>
      let stored := { r with id := id, versionId := some 1 }
      (db ++ [(id, stored)], .ok stored)

/-- Shallow embedding of mongoSession.ConditionalPost (part_009 lines
408-432).  `existingIds` is the FindIDs result for the query (the search
compiler is outside this corpus).  Returns the database and, on success,
(httpStatus, id, outputResource). -/
def ConditionalPost (existingIds : List String) (newId : String) (resource : BundleResource)
    (db : Database) : Database × Except DalError (Nat × String × Option BundleResource) :=
  if existingIds.length == 0 then
    match dalPostWithID newId resource db with
    | (db1, .ok stored) => (db1, .ok (201, newId, some stored))
    | (db1, .error e) => (db1, .error e)
  else if existingIds.length == 1 then
    let id := existingIds.headD ""
    match dbGet db id with
    | some r => (db, .ok (200, id, some r))
    | none => (db, .error .notFound)
  else
    (db, .ok (412, "", none))

/-- The conditional-create staging of postInner (part_008 lines 291-316):
a POST entry carrying If-None-Exist stages 201 / 200 / 412 by the number of
FindIDs matches; an unconditional POST stages 201. -/
def stageCreateStatus (ifNoneExist : Option (List String)) : String :=
  match ifNoneExist with
  | none => "201"
  | some existingIds =>
      if existingIds.length == 0 then "201"
      else if existingIds.length == 1 then "200"
      else "412"

/-- A POST entry of a bundle: its body, the FindIDs result of its
If-None-Exist query (`none` when the header is absent), and the id that
pass 1 allocates for it when it stages 201. -/
structure PostEntry where
  resource : BundleResource
  ifNoneExist : Option (List String)
  freshId : String
deriving DecidableEq, Repr

/-- The observable outcome of executing one bundle entry: its staged status,
entry.Resource after execution, and whether entry.Response carries an error
outcome. -/
structure EntryResult where
  status : String
  resource : Option BundleResource
  outcome : Bool
deriving DecidableEq, Repr

/-- The POST case of doRequestInner (part_008 lines 659-688): a 201 entry is
written with its pass-1 id; a 200 entry re-reads the existing resource (the
id staged into its FullUrl) and performs no write; a 412 entry gets a
duplicate outcome and no resource. -/
def doPostEntry (e : PostEntry) (db : Database) : Database × Except DalError EntryResult :=
  let status := stageCreateStatus e.ifNoneExist
  if status == "201" then
    match dalPostWithID e.freshId e.resource db with
    | (db1, .ok stored) => (db1, .ok ⟨"201", some stored, false⟩)
    | (db1, .error err) => (db1, .error err)
  else if status == "200" then
    let existingId := (e.ifNoneExist.getD []).headD ""
    match dbGet db existingId with
    | some r => (db, .ok ⟨"200", some r, false⟩)
    | none => (db, .error .notFound)
  else
    (db, .ok ⟨"412", none, true⟩)

/-- Serial execution of a transaction's POST entries (concurrency = 1 in
transactions); the first database error aborts. -/
def execPostEntries : List PostEntry → Database → Database × Except DalError (List EntryResult)
  | [], db => (db, .ok [])
  | e :: rest, db =>
      match doPostEntry e db with
      | (db1, .error err) => (db1, .error err)
      | (db1, .ok r) =>
          match execPostEntries rest db1 with
          | (db2, .error err) => (db2, .error err)
          | (db2, .ok rs) => (db2, .ok (r :: rs))

/-- The target references processProvenanceHeader synthesises (part_008
lines 937-969): one `Type/id` (with `/_history/v` when history is enabled)
for every entry whose Resource is non-nil, in entry order; missing
resourceType/id/versionId are internal errors. -/
def provTargetRefs (enableHistory : Bool) : List EntryResult → Except String (List String)
  | [] => .ok []
  | r :: rest =>
      match r.resource with
      | none => provTargetRefs enableHistory rest
      | some res =>
          if res.resourceType == "" then .error "processProvenanceHeader: missing resourceType"
          else if res.id == "" then .error "processProvenanceHeader: missing id"
          else if enableHistory && res.versionId == none then
            .error "processProvenanceHeader: missing versionId"
          else
            let ref := res.resourceType ++ "/" ++ res.id ++
              (if enableHistory then "/_history/" ++ (toString (res.versionId.getD 0)) else "")
            match provTargetRefs enableHistory rest with
            | .error e => .error e
            | .ok more => .ok (ref :: more)

/-- The stored synthesised Provenance resource (its original header fields
plus the target array) and the response header value. -/
structure ProvenanceOutcome where
  provenance : Option (JFields × List String)
  locationHeader : Option String
deriving Repr

/-- Shallow embedding of processProvenanceHeader (part_008 lines 900-995):
validate the header (a JSON object, resourceType Provenance, no target),
synthesise the target array from the executed entries, store the resulting
Provenance resource under a fresh id and report its location header. -/
def processProvenanceHeader (enableHistory : Bool) (header : Option Json) (provId : String)
    (results : List EntryResult) (db : Database) : Database × Except String ProvenanceOutcome :=
  match header with
  | none => (db, .ok ⟨none, none⟩)
  | some h =>
      match h with
      | .obj fields =>
          match fields.lookup "resourceType" with
          | some (.str rt) =>
              if rt != "Provenance" then
                (db, .error "error parsing X-Provenance header: invalid resourceType")
              else if (fields.lookup "target").isSome then
                (db, .error "error parsing X-Provenance header: target should not be set")
              else
                match provTargetRefs enableHistory results with
                | .error e => (db, .error e)
                | .ok targets =>
                    let provResource : BundleResource := ⟨"Provenance", provId, none, "provenance"⟩
                    match dalPostWithID provId provResource db with
                    | (db1, .ok _) =>
                        (db1, .ok ⟨some (fields, targets), some ("Provenance/" ++ provId)⟩)
                    | (db1, .error _) => (db1, .error "failed to create provenanceResource")
          | some _ => (db, .error "error parsing X-Provenance header: invalid resourceType")
          | none => (db, .error "error parsing X-Provenance header resourceType")
      | _ => (db, .error "error parsing X-Provenance header resourceType")

/-- The transaction path of postInner for a bundle of POST entries
(part_008 lines 493-575): execute serially, fail the transaction if any entry
staged an error outcome (the provenance header is then never processed),
otherwise process the X-Provenance header and commit. -/
def runTransactionPosts (enableHistory : Bool) (header : Option Json) (provId : String)
    (entries : List PostEntry) (db : Database) :
    Database × Except String (List EntryResult × ProvenanceOutcome) :=
  match execPostEntries entries db with
  | (db1, .error _) => (db1, .error "entry failed")
  | (db1, .ok results) =>
      if results.any (·.outcome) then (db1, .error "transaction failed")
      else
        match processProvenanceHeader enableHistory header provId results db1 with
        | (db2, .error e) => (db2, .error e)
        | (db2, .ok pov) => (db2, .ok (results, pov))

/-- The batch check of postInner (part_008 lines 268-280): an X-Provenance
header on a batch bundle is rejected with a broken-invariant outcome. -/
def batchProvenanceCheck (bundleType : String) (provenanceHeaderPresent : Bool) : Option String :=
  if bundleType == "batch" && provenanceHeaderPresent then
    some "X-Provenance header is only supported from transactions"
  else none

/-- Modelled from the spec: the fragment of the generated fhirTypes registry
(fhir_types.go, generated at build time from the FHIR definitions; spec
section 4.1 Type Registry) needed for the concrete Patient documents used in
the theorems below. -/
def patientRegistry : TypeRegistry := fun path =>
  if path == "Patient.id" then some "id"
  else if path == "Patient.extension" then some "Extension"
  else if path == "Patient.gender" then some "code"
  else if path == "Patient.managingOrganization" then some "Reference"
  else if path == "Reference.reference" then some "string"
  else if path == "Organization.id" then some "id"
  else none

/-- The failing input for the JSON round-trip claim: a Patient whose
extension array contains a null element (accepted by the ingest converter,
which stores the element as nil). -/
def patientWithNullExtension : Json :=
  .obj (.cons "resourceType" (.str "Patient")
       (.cons "extension" (.arr (.cons .null .nil)) .nil))

/-- The stored form the ingest converter produces for
`patientWithNullExtension`. -/
def patientWithNullExtensionBSON : BFields :=
  .cons "resourceType" (.str "Patient")
       (.cons "extension" (.arr (.cons .null .nil)) .nil)

/-- Decidable equality of Except results, so concrete runs of the embedded
functions can be evaluated by `decide`. -/
instance {e a : Type} [DecidableEq e] [DecidableEq a] : DecidableEq (Except e a) := fun x y =>
  match x, y with
  | .ok u, .ok v => if h : u = v then isTrue (by rw [h]) else isFalse (by simp [h])
  | .error u, .error v => if h : u = v then isTrue (by rw [h]) else isFalse (by simp [h])
  | .ok _, .error _ => isFalse (by simp)
  | .error _, .ok _ => isFalse (by simp)

/-! Claim-side predicates (stating the claims in the spec's words, to be
compared against the behaviour of the embedded code). -/

/-- A run of `n` lowercase hex characters. -/
def HexRun (n : Nat) (h : List Char) : Prop :=
  h.length = n ∧ ∀ c ∈ h, isHexLower c = true

/-- A lowercase-hex UUID in 8-4-4-4-12 form. -/
def IsUuidChars (u : List Char) : Prop :=
  ∃ a b c d e,
    u = a ++ '-' :: (b ++ '-' :: (c ++ '-' :: (d ++ '-' :: e))) ∧
    HexRun 8 a ∧ HexRun 4 b ∧ HexRun 4 c ∧ HexRun 4 d ∧ HexRun 12 e

/-- Claim C9's reading of hasTempID: the string contains a urn:uuid: (or
percent-encoded urn%3Auuid%3A) UUID immediately preceded by = or , and
immediately followed by &, a comma, or the end of the string. -/
def HasTempIdSpec (s : String) : Prop :=
  ∃ (pre : List Char) (d : Char) (marker u post : List Char),
    s.data = pre ++ d :: (marker ++ (u ++ post)) ∧
    (d = '=' ∨ d = ',') ∧
    (marker = "urn:uuid:".data ∨ marker = "urn%3Auuid%3A".data) ∧
    IsUuidChars u ∧
    (post = [] ∨ ∃ c rest, post = c :: rest ∧ (c = '&' ∨ c = ','))

/-- Claim C3's statement: under any sequence of accepted create/update/delete
operations on one id, the assigned versionIds start at 1 and strictly
increase. -/
def VersionIdsClaim (ops : List StorageOp) : Prop :=
  ∀ s vs, execAll ops Store.empty = .ok (s, vs) →
    (vs = [] ∨ vs.head? = some 1) ∧ vs.Chain' (· < ·)

/-- Claim C6's statement about the links of a paging-capable search: self and
first always present; previous present iff offset > 0; next and last omitted
only when totals are disabled and the current page is not full; with a known
total, last is present and next is present iff further results remain. -/
def PagingLinksClaim (countTotalResults : Bool) (pOffset pCount : Option Int)
    (total numResults : Int) : Prop :=
  let links := generatePagingLinks countTotalResults true pOffset pCount total numResults
  let offset := effectiveOffset pOffset
  let count := effectiveCount pCount
  hasLink links "self" = true ∧ hasLink links "first" = true ∧
  (hasLink links "previous" = true ↔ offset > 0) ∧
  ((hasLink links "next" = false ∨ hasLink links "last" = false) →
    (countTotalResults = false ∧ numResults ≠ count)) ∧
  (countTotalResults = true →
    (hasLink links "last" = true ∧ (hasLink links "next" = true ↔ total > offset + count)))

/-- The provenance reference of a stored resource: Type/id, with /_history/v
appended when history is enabled. -/
def provenanceRef (enableHistory : Bool) (r : BundleResource) : String :=
  r.resourceType ++ "/" ++ r.id ++
    (if enableHistory then "/_history/" ++ (toString (r.versionId.getD 0)) else "")

/-- Claim C8's statement about the synthesised target array: after a
successful transaction it contains one reference for every written resource
and only for written resources (a resource is written when its id was newly
inserted by the transaction's entries). -/
def ProvenanceTargetsClaim (enableHistory : Bool) (header : Option Json) (provId : String)
    (entries : List PostEntry) (db : Database) : Prop :=
  ∀ dbMid results db2 results2 pov fields targets,
    execPostEntries entries db = (dbMid, .ok results) →
    runTransactionPosts enableHistory header provId entries db = (db2, .ok (results2, pov)) →
    pov.provenance = some (fields, targets) →
    targets = (dbMid.filter (fun p => dbGet db p.1 = none)).map
      (fun p => provenanceRef enableHistory p.2)

/-- The concrete database for the provenance counterexample: one existing
Patient with id "a". -/
def provDb : Database := [("a", ⟨"Patient", "a", some 1, "existing"⟩)]

/-- The concrete transaction entry for the provenance counterexample: a POST
with an If-None-Exist query that matches the one existing Patient, so it
stages 200 and performs no write. -/
def provEntry : PostEntry := ⟨⟨"Patient", "", none, "new"⟩, some ["a"], "fresh1"⟩

/-- A minimal valid X-Provenance header object. -/
def provHeaderJson : Json := .obj (.cons "resourceType" (.str "Provenance") .nil)



/-- The concrete store for the History witness: a resource created at version
1 and then deleted, leaving a version-2 tombstone and no current document. -/
def histStoreEx : Store :=
  ⟨none, [⟨1, false, some ⟨some 1, "a"⟩⟩, ⟨2, true, none⟩]⟩

/-- The history bundle History returns on histStoreEx: the deletion newest
first, then the creation, with the oldest entry rewritten to POST. -/
def histBundleEx : HistoryBundle :=
  ⟨"history", 2, [⟨"DELETE", none⟩, ⟨"POST", some ⟨some 1, "a"⟩⟩]⟩


/-! ## Theorems -/


/-- C1: For every Put with a non-empty conditionalVersionId and history
enabled: a missing current document is reported as Conflict; a current
document whose meta.versionId (0 when absent) differs from the
conditionalVersionId is reported as Conflict; and the final replace is
filtered on the observed current versionId, so that a replace modifying 0
documents is also reported as Conflict.  In each failure case the current
document is left unchanged. -/
theorem C1_put_conditional_conflicts (cond : String) (r : StoredDoc) (s : Store)
    (hc : cond ≠ "") :
    (s.current = none →
      Put true cond r s =
        (s, .error (.conflict "If-Match specified for a resource that doesn't exist"))) ∧
    (∀ d, s.current = some d → cond ≠ toString (d.versionId.getD 0) →
      Put true cond r s = (s, .error (.conflict "If-Match doesn't match current versionId"))) ∧
    (∀ (observed : Nat) (r2 : StoredDoc) (s2 : Store),
      (∀ d, s2.current = some d → matchesVersionFilter observed d = false) →
      putReplaceStep (some observed) r2 s2 = (s2, .error (.conflict "conflicting update"))) := by
  refine ⟨?_, ?_, ?_⟩
  · intro hnone
    simp [Put, hnone, hc]
  · intro d hd hver
    have hne : cond ≠ d.versionIdStr := by
      cases hv : d.versionId with
      | none => simpa [StoredDoc.versionIdStr, hv] using hc
      | some v => simpa [StoredDoc.versionIdStr, hv] using (by simpa [hv] using hver)
    simp [Put, hd, hc, hne]
  · intro observed r2 s2 hmiss
    cases hcur : s2.current with
    | none => simp [putReplaceStep, hcur]
    | some d => simp [putReplaceStep, hcur, hmiss d hcur]

/-- Closed witness for C1 at concrete inputs. -/
theorem C1_put_conditional_conflicts_witness :
    Put true "9" ⟨none, "x"⟩ ⟨some ⟨some 1, "y"⟩, []⟩ =
      (⟨some ⟨some 1, "y"⟩, []⟩, .error (.conflict "If-Match doesn't match current versionId")) :=
  (C1_put_conditional_conflicts "9" ⟨none, "x"⟩ ⟨some ⟨some 1, "y"⟩, []⟩ (by decide)).2.1
    ⟨some 1, "y"⟩ rfl (by decide)



/-- C4: ConditionalPost creates and returns 201 when the query matches 0
resources, returns 200 with the existing resource and performs no write when
it matches exactly 1, and returns 412 with no write when it matches more than
1; the same 201/200(no write)/412 staging applies to bundle POST entries
carrying If-None-Exist. -/
theorem C4_conditional_post (existingIds : List String) (newId : String)
    (r : BundleResource) (db : Database) :
    (existingIds = [] → dbGet db newId = none →
      ConditionalPost existingIds newId r db =
        (db ++ [(newId, { r with id := newId, versionId := some 1 })],
         .ok (201, newId, some { r with id := newId, versionId := some 1 }))) ∧
    (∀ x rx, existingIds = [x] → dbGet db x = some rx →
      ConditionalPost existingIds newId r db = (db, .ok (200, x, some rx))) ∧
    (existingIds.length > 1 →
      ConditionalPost existingIds newId r db = (db, .ok (412, "", none))) ∧
    (stageCreateStatus (some existingIds) =
      if existingIds.length = 0 then "201"
      else if existingIds.length = 1 then "200" else "412") ∧
    (∀ e : PostEntry, e.ifNoneExist = some existingIds →
      (∀ x rx, existingIds = [x] → dbGet db x = some rx →
        doPostEntry e db = (db, .ok ⟨"200", some rx, false⟩)) ∧
      (existingIds.length > 1 → doPostEntry e db = (db, .ok ⟨"412", none, true⟩)) ∧
      (existingIds = [] → dbGet db e.freshId = none →
        doPostEntry e db =
          (db ++ [(e.freshId, { e.resource with id := e.freshId, versionId := some 1 })],
           .ok ⟨"201", some { e.resource with id := e.freshId, versionId := some 1 }, false⟩))) := by
  refine ⟨?_, ?_, ?_, ?_, ?_⟩
  · intro h0 hfresh
    simp [ConditionalPost, h0, dalPostWithID, hfresh]
  · intro x rx h1 hx
    simp [ConditionalPost, h1, hx]
  · intro hgt
    have h0 : ¬ existingIds.length = 0 := by omega
    have h1 : ¬ existingIds.length = 1 := by omega
    simp [ConditionalPost, h0, h1]
  · simp [stageCreateStatus]
  · intro e he
    refine ⟨?_, ?_, ?_⟩
    · intro x rx h1 hx
      simp [doPostEntry, he, h1, stageCreateStatus, hx]
    · intro hgt
      have h0 : ¬ existingIds.length = 0 := by omega
      have h1 : ¬ existingIds.length = 1 := by omega
      simp [doPostEntry, he, stageCreateStatus, h0, h1]
    · intro h0 hfresh
      simp [doPostEntry, he, h0, stageCreateStatus, dalPostWithID, hfresh]

/-- Closed witness for C4 at concrete inputs. -/
theorem C4_conditional_post_witness :
    ConditionalPost ["a"] "n" ⟨"Patient", "", none, "new"⟩ provDb =
      (provDb, .ok (200, "a", some ⟨"Patient", "a", some 1, "existing"⟩)) :=
  (C4_conditional_post ["a"] "n" ⟨"Patient", "", none, "new"⟩ provDb).2.1
    "a" ⟨"Patient", "a", some 1, "existing"⟩ rfl (by decide)



/-- C2 (failing input): the ingest converter accepts a Patient whose
extension array contains a null element (the null is stored as nil), but the
egress converter fails on the stored document instead of reproducing the
original JSON — the JSON round-trip does not hold for every accepted
resource. -/
theorem C2_roundtrip_failing_input :
    ConvertJsonToGoFhirBSON patientRegistry (fun _ => none) false patientWithNullExtension
      = .ok patientWithNullExtensionBSON ∧
    ConvertGoFhirBSONToJSON patientWithNullExtensionBSON
      = .error "processExtensionsArray: element of unexpected type" := by
  exact ⟨by decide, by decide⟩

/-- C6 (counterexample): with totals disabled and a full page
(numResults = count = 10), the last link is absent although the page is full,
contradicting the claim that next and last are omitted only when totals are
disabled and the page is not full. -/
theorem C6_paging_links_counterexample :
    ¬ PagingLinksClaim false none (some 10) 0 10 := by
  intro h
  obtain ⟨-, -, -, h4, -⟩ := h
  have h5 := h4 (Or.inr (by decide))
  exact absurd h5.2 (by decide)

/-- C6 (amended): for paging-capable queries, self and first are always
present; previous is present iff offset > 0; when the total is known, last is
present and next is present iff further results remain; when totals are
disabled, last is always omitted and next is present iff the current page is
full. -/
theorem C6_paging_links (ctr : Bool) (pOffset pCount : Option Int) (total numResults : Int) :
    (hasLink (generatePagingLinks ctr true pOffset pCount total numResults) "self" = true) ∧
    (hasLink (generatePagingLinks ctr true pOffset pCount total numResults) "first" = true) ∧
    (hasLink (generatePagingLinks ctr true pOffset pCount total numResults) "previous" = true
      ↔ effectiveOffset pOffset > 0) ∧
    (ctr = true →
      hasLink (generatePagingLinks ctr true pOffset pCount total numResults) "last" = true ∧
      (hasLink (generatePagingLinks ctr true pOffset pCount total numResults) "next" = true
        ↔ total > effectiveOffset pOffset + effectiveCount pCount)) ∧
    (ctr = false →
      hasLink (generatePagingLinks ctr true pOffset pCount total numResults) "last" = false ∧
      (hasLink (generatePagingLinks ctr true pOffset pCount total numResults) "next" = true
        ↔ numResults = effectiveCount pCount)) := by
  by_cases ho : 0 < effectiveOffset pOffset <;>
  by_cases hfull : numResults = effectiveCount pCount <;>
  by_cases hmore : effectiveOffset pOffset + effectiveCount pCount < total <;>
  cases ctr <;>
  simp +decide [generatePagingLinks, hasLink, ho, hfull, hmore]



theorem C3_versionids_counterexample :
    ¬ VersionIdsClaim [.post "a", .delete, .put "b"] := by
  intro h
  have h2 := (h ⟨some ⟨some 1, "b"⟩, [⟨1, false, some ⟨some 1, "a"⟩⟩, ⟨2, true, none⟩]⟩
    [1, 2, 1] (by decide)).2
  simp [List.chain'_cons] at h2

theorem execAll_trailing_delete (ops : List StorageOp) :
    ∀ (s : Store) (d : StoredDoc) (k : Nat), s.current = some d → d.versionId = some k →
    1 ≤ k → StorageOp.delete ∉ ops.dropLast →
    ∀ s2 vs, execAll ops s = .ok (s2, vs) → vs = List.range' (k+1) ops.length := by
  induction ops with
  | nil =>
      intro s d k hd hv hk hnd s2 vs h
      simp [execAll] at h
      simp [h.2]
  | cons op rest ih =>
      intro s d k hd hv hk hnd s2 vs h
      have hk0 : (k == 0) = false := by simp; omega
      cases op with
      | post b =>
          simp [execAll, execOp, PostWithID, hd] at h
      | put b =>
          have hexec : execOp (.put b) s =
              ({ current := some ⟨some (k+1), b⟩,
                 prev := upsertPrev ⟨k, false, some d⟩ s.prev }, .ok (k+1)) := by
            simp [execOp, Put, hd, hv, putReplaceStep, matchesVersionFilter, hk0,
              updateResourceMeta]
          simp only [execAll, hexec] at h
          cases hrest : execAll rest
              { current := some ⟨some (k+1), b⟩,
                prev := upsertPrev ⟨k, false, some d⟩ s.prev } with
          | error e => rw [hrest] at h; simp at h
          | ok p =>
              obtain ⟨s3, vs3⟩ := p
              rw [hrest] at h
              simp at h
              have hnd2 : StorageOp.delete ∉ rest.dropLast := by
                intro hmem
                apply hnd
                cases rest with
                | nil => simp at hmem
                | cons r rs =>
                    rw [List.dropLast_cons₂]
                    exact List.mem_cons_of_mem _ hmem
              have hres := ih ⟨some ⟨some (k+1), b⟩, upsertPrev ⟨k, false, some d⟩ s.prev⟩
                  ⟨some (k+1), b⟩ (k+1) rfl rfl (by omega) hnd2 s3 vs3 hrest
              rw [← h.2, hres]
              simp [List.range']
      | delete =>
          have hrestnil : rest = [] := by
            cases rest with
            | nil => rfl
            | cons r rs =>
                exfalso
                apply hnd
                simp [List.dropLast]
          subst hrestnil
          have hexec : execOp .delete s =
              ({ current := none,
                 prev := upsertPrev ⟨k+1, true, none⟩ (upsertPrev ⟨k, false, some d⟩ s.prev) },
               .ok (k+1)) := by
            simp [execOp, Delete, saveDeletionIntoHistory, hd, hv]
          simp only [execAll, hexec] at h
          simp [execAll] at h
          simp [← h.2, List.range']



theorem delete_not_in_dropLast_tail {op : StorageOp} {rest : List StorageOp}
    (h : StorageOp.delete ∉ (op :: rest).dropLast) : StorageOp.delete ∉ rest.dropLast := by
  intro hmem
  apply h
  cases rest with
  | nil => simp at hmem
  | cons r rs =>
      rw [List.dropLast_cons₂]
      exact List.mem_cons_of_mem _ hmem

theorem C3_versionids_monotonic (ops : List StorageOp)
    (hops : StorageOp.delete ∉ ops.dropLast) :
    ∀ s vs, execAll ops Store.empty = .ok (s, vs) → vs = List.range' 1 vs.length := by
  intro s vs h
  cases ops with
  | nil =>
      simp [execAll] at h
      obtain ⟨-, h2⟩ := h
      subst h2
      rfl
  | cons op rest =>
      cases op with
      | delete => simp [execAll, execOp, Delete, saveDeletionIntoHistory, Store.empty] at h
      | post b =>
          have hexec : execOp (.post b) Store.empty =
              (⟨some ⟨some 1, b⟩, []⟩, .ok 1) := by
            simp [execOp, PostWithID, Store.empty, updateResourceMeta]
          simp only [execAll, hexec] at h
          cases hrest : execAll rest ⟨some ⟨some 1, b⟩, []⟩ with
          | error e => rw [hrest] at h; simp at h
          | ok p =>
              obtain ⟨s3, vs3⟩ := p
              rw [hrest] at h
              simp at h
              have hres := execAll_trailing_delete rest ⟨some ⟨some 1, b⟩, []⟩ ⟨some 1, b⟩ 1
                rfl rfl (le_refl 1) (delete_not_in_dropLast_tail hops) s3 vs3 hrest
              rw [← h.2, hres]
              simp [List.range']
      | put b =>
          have hexec : execOp (.put b) Store.empty =
              (⟨some ⟨some 1, b⟩, []⟩, .ok 1) := by
            simp [execOp, Put, Store.empty, putReplaceStep, updateResourceMeta]
          simp only [execAll, hexec] at h
          cases hrest : execAll rest ⟨some ⟨some 1, b⟩, []⟩ with
          | error e => rw [hrest] at h; simp at h
          | ok p =>
              obtain ⟨s3, vs3⟩ := p
              rw [hrest] at h
              simp at h
              have hres := execAll_trailing_delete rest ⟨some ⟨some 1, b⟩, []⟩ ⟨some 1, b⟩ 1
                rfl rfl (le_refl 1) (delete_not_in_dropLast_tail hops) s3 vs3 hrest
              rw [← h.2, hres]
              simp [List.range']

theorem C3_versionids_monotonic_witness :
    execAll [.post "a", .put "b", .delete] Store.empty =
      .ok (⟨none, [⟨1, false, some ⟨some 1, "a"⟩⟩, ⟨2, false, some ⟨some 2, "b"⟩⟩,
                   ⟨3, true, none⟩]⟩, [1, 2, 3]) ∧
    [1, 2, 3] = List.range' 1 3 := by
  refine ⟨by decide, ?_⟩
  have h := C3_versionids_monotonic [.post "a", .put "b", .delete] (by decide)
    ⟨none, [⟨1, false, some ⟨some 1, "a"⟩⟩, ⟨2, false, some ⟨some 2, "b"⟩⟩, ⟨3, true, none⟩]⟩
    [1, 2, 3] (by decide)
  simpa using h



/-- C7: derived reference index fields. -/
theorem C7_reference_siblings (reg : TypeRegistry) (pathHere reference : String) :
    (2 ≤ (strSplit reference '/').length →
     (strSplit reference '/').getD ((strSplit reference '/').length - 2) "" ≠ "_history" →
     (reg ((strSplit reference '/').getD ((strSplit reference '/').length - 2) "" ++ ".id")).isSome →
      referenceSiblings reg pathHere reference =
        .ok [("reference__id", .str ((strSplit reference '/').getD ((strSplit reference '/').length - 1) "")),
             ("reference__type", .str ((strSplit reference '/').getD ((strSplit reference '/').length - 2) "")),
             ("reference__external", .bool (strStartsWith reference "http"))]) ∧
    (4 ≤ (strSplit reference '/').length →
     (strSplit reference '/').getD ((strSplit reference '/').length - 2) "" = "_history" →
     (reg ((strSplit reference '/').getD ((strSplit reference '/').length - 4) "" ++ ".id")).isSome →
      referenceSiblings reg pathHere reference =
        .ok [("reference__id", .str ((strSplit reference '/').getD ((strSplit reference '/').length - 3) "")),
             ("reference__type", .str ((strSplit reference '/').getD ((strSplit reference '/').length - 4) "")),
             ("reference__external", .bool (strStartsWith reference "http"))]) ∧
    ((strSplit reference '/').length < 2 → strStartsWith reference "#" = true →
      referenceSiblings reg pathHere reference =
        .ok [("reference__external", .bool (strStartsWith reference "http"))]) ∧
    ((strSplit reference '/').length < 2 → strStartsWith reference "#" = false →
     strStartsWith reference "urn:uuid:" = true → strStartsWith pathHere "Bundle." = true →
      referenceSiblings reg pathHere reference =
        .ok [("reference__external", .bool (strStartsWith reference "http"))]) ∧
    ((strSplit reference '/').length < 2 → strStartsWith reference "#" = false →
     (strStartsWith reference "urn:uuid:" = false ∨ strStartsWith pathHere "Bundle." = false) →
      ∃ e, referenceSiblings reg pathHere reference = .error e) ∧
    (2 ≤ (strSplit reference '/').length →
     (strSplit reference '/').getD ((strSplit reference '/').length - 2) "" ≠ "_history" →
     (reg ((strSplit reference '/').getD ((strSplit reference '/').length - 2) "" ++ ".id")).isSome = false →
      ∃ e, referenceSiblings reg pathHere reference = .error e) ∧
    (2 ≤ (strSplit reference '/').length → (strSplit reference '/').length < 4 →
     (strSplit reference '/').getD ((strSplit reference '/').length - 2) "" = "_history" →
      ∃ e, referenceSiblings reg pathHere reference = .error e) := by
  refine ⟨?_, ?_, ?_, ?_, ?_, ?_, ?_⟩
  · intro hlen hnh hreg
    simp only [List.getD_eq_getElem?_getD] at hnh hreg
    simp only [referenceSiblings]
    split_ifs <;> simp_all <;> omega
  · intro hlen hh hreg
    simp only [List.getD_eq_getElem?_getD] at hh hreg
    simp only [referenceSiblings]
    split_ifs <;> simp_all <;> omega
  · intro hlen hhash
    simp only [referenceSiblings]
    split_ifs <;> simp_all <;> omega
  · intro hlen hhash hurn hbundle
    simp only [referenceSiblings]
    split_ifs <;> simp_all <;> omega
  · intro hlen hhash hor
    rcases hor with hurn | hbundle
    · simp only [referenceSiblings]
      split_ifs <;> simp_all <;> omega
    · simp only [referenceSiblings]
      split_ifs <;> simp_all <;> omega
  · intro hlen hnh hreg
    simp only [List.getD_eq_getElem?_getD] at hnh hreg
    simp only [referenceSiblings]
    split_ifs <;> simp_all <;> omega
  · intro hlen hlt hh
    simp only [List.getD_eq_getElem?_getD] at hh
    simp only [referenceSiblings]
    split_ifs <;> simp_all <;> omega

/-- Closed witness for C7: Organization/123 under a known registry type. -/
theorem C7_reference_siblings_witness :
    referenceSiblings patientRegistry "Patient.managingOrganization" "Organization/123" =
      .ok [("reference__id", .str "123"), ("reference__type", .str "Organization"),
           ("reference__external", .bool false)] := by
  have h := (C7_reference_siblings patientRegistry "Patient.managingOrganization"
    "Organization/123").1 (by decide) (by decide) (by decide)
  simpa using h



theorem consumeLit_eq_some (lit : List Char) : ∀ (l r : List Char),
    consumeLit lit l = some r ↔ l = lit ++ r := by
  induction lit with
  | nil => intro l r; simp [consumeLit]
  | cons a as ih =>
      intro l r
      cases l with
      | nil => simp [consumeLit]
      | cons c cs =>
          simp only [consumeLit]
          by_cases hc : c = a
          · subst hc
            simp [ih]
          · simp [hc, Ne.symm hc]

theorem consumeHex_eq_some (n : Nat) : ∀ (l r : List Char),
    consumeHex n l = some r ↔ ∃ h, l = h ++ r ∧ HexRun n h := by
  induction n with
  | zero =>
      intro l r
      simp only [consumeHex, HexRun]
      constructor
      · intro h
        exact ⟨[], by simpa using h, rfl, by simp⟩
      · rintro ⟨h, heq, hlen, -⟩
        rw [List.length_eq_zero] at hlen
        subst hlen
        simpa using heq
  | succ n ih =>
      intro l r
      cases l with
      | nil =>
          simp only [consumeHex, HexRun]
          constructor
          · intro h; cases h
          · rintro ⟨h, heq, hlen, -⟩
            cases h with
            | nil => simp at hlen
            | cons x xs => simp at heq
      | cons c cs =>
          simp only [consumeHex]
          by_cases hc : isHexLower c = true
          · rw [if_pos hc, ih]
            constructor
            · rintro ⟨h, rfl, hlen, hhex⟩
              refine ⟨c :: h, rfl, ?_, ?_⟩
              · simp [hlen]
              · intro ch hm
                rcases List.mem_cons.mp hm with rfl | hm2
                · exact hc
                · exact hhex ch hm2
            · rintro ⟨h, heq, hlen, hhex⟩
              cases h with
              | nil => simp at hlen
              | cons x xs =>
                  have hx : c = x ∧ cs = xs ++ r := by simpa using heq
                  obtain ⟨rfl, hcs⟩ := hx
                  exact ⟨xs, hcs, by simpa using hlen, fun ch hm => hhex ch (by simp [hm])⟩
          · rw [if_neg hc]
            constructor
            · intro h; cases h
            · rintro ⟨h, heq, hlen, hhex⟩
              cases h with
              | nil => simp at hlen
              | cons x xs =>
                  have hx : c = x ∧ cs = xs ++ r := by simpa using heq
                  obtain ⟨rfl, -⟩ := hx
                  exact absurd (hhex c (by simp)) hc



theorem consumeUuid_eq_some (l r : List Char) :
    consumeUuid l = some r ↔ ∃ u, l = u ++ r ∧ IsUuidChars u := by
  simp only [consumeUuid, Option.bind_eq_some, consumeHex_eq_some, consumeLit_eq_some]
  constructor
  · rintro ⟨l1, ⟨a, rfl, ha⟩, l2, rfl, l3, ⟨b, rfl, hb⟩, l4, rfl, l5, ⟨c, rfl, hc⟩,
      l6, rfl, l7, ⟨d, rfl, hd⟩, l8, rfl, e, rfl, he⟩
    refine ⟨a ++ '-' :: (b ++ '-' :: (c ++ '-' :: (d ++ '-' :: e))), ?_, ?_⟩
    · simp
    · exact ⟨a, b, c, d, e, rfl, ha, hb, hc, hd, he⟩
  · rintro ⟨u, rfl, a, b, c, d, e, rfl, ha, hb, hc, hd, he⟩
    refine ⟨'-' :: (b ++ '-' :: (c ++ '-' :: (d ++ '-' :: e))) ++ r, ⟨a, by simp, ha⟩, ?_⟩
    refine ⟨(b ++ '-' :: (c ++ '-' :: (d ++ '-' :: e))) ++ r, by simp, ?_⟩
    refine ⟨'-' :: (c ++ '-' :: (d ++ '-' :: e)) ++ r, ⟨b, by simp, hb⟩, ?_⟩
    refine ⟨(c ++ '-' :: (d ++ '-' :: e)) ++ r, by simp, ?_⟩
    refine ⟨'-' :: (d ++ '-' :: e) ++ r, ⟨c, by simp, hc⟩, ?_⟩
    refine ⟨(d ++ '-' :: e) ++ r, by simp, ?_⟩
    refine ⟨'-' :: e ++ r, ⟨d, by simp, hd⟩, ?_⟩
    refine ⟨e ++ r, by simp, ?_⟩
    exact ⟨e, rfl, he⟩



theorem urn_markers_disjoint (x : List Char) :
    consumeLit "urn:uuid:".data ("urn%3Auuid%3A".data ++ x) = none := by
  have h1 : "urn:uuid:".data = ['u', 'r', 'n', ':', 'u', 'u', 'i', 'd', ':'] := rfl
  have h2 : "urn%3Auuid%3A".data =
      ['u', 'r', 'n', '%', '3', 'A', 'u', 'u', 'i', 'd', '%', '3', 'A'] := rfl
  rw [h1, h2]
  simp +decide [consumeLit]

theorem tempIdAt_iff (l : List Char) :
    tempIdAt l = true ↔
      ∃ (d : Char) (marker u post : List Char),
        l = d :: (marker ++ (u ++ post)) ∧ (d = '=' ∨ d = ',') ∧
        (marker = "urn:uuid:".data ∨ marker = "urn%3Auuid%3A".data) ∧
        IsUuidChars u ∧
        (post = [] ∨ ∃ c2 rest2, post = c2 :: rest2 ∧ (c2 = '&' ∨ c2 = ',')) := by
  cases l with
  | nil =>
      simp only [tempIdAt]
      constructor
      · intro h; cases h
      · rintro ⟨d, marker, u, post, heq, -⟩
        cases heq
  | cons c cs =>
      simp only [tempIdAt]
      constructor
      · intro h
        rw [Bool.and_eq_true] at h
        obtain ⟨hd0, hrest⟩ := h
        have hd : c = '=' ∨ c = ',' := by
          rcases Bool.or_eq_true _ _ |>.mp hd0 with h | h
          · exact Or.inl (by simpa using h)
          · exact Or.inr (by simpa using h)
        rcases h1 : consumeLit "urn:uuid:".data cs with _ | rest1
        · rcases h2 : consumeLit "urn%3Auuid%3A".data cs with _ | rest2
          · rw [h1, h2] at hrest
            simp [Option.orElse] at hrest
          · rw [h1, h2] at hrest
            simp only [Option.orElse] at hrest
            rcases h3 : consumeUuid rest2 with _ | tail
            · rw [h3] at hrest; simp at hrest
            · rw [h3] at hrest
              obtain ⟨u, rfl, hu⟩ := (consumeUuid_eq_some _ _).mp h3
              have hcs := (consumeLit_eq_some _ _ _).mp h2
              cases tail with
              | nil =>
                  exact ⟨c, _, u, [], by simp [hcs], hd, Or.inr rfl, hu, Or.inl rfl⟩
              | cons t ts =>
                  have ht : t = '&' ∨ t = ',' := by
                    rcases Bool.or_eq_true _ _ |>.mp hrest with h | h
                    · exact Or.inl (by simpa using h)
                    · exact Or.inr (by simpa using h)
                  exact ⟨c, _, u, t :: ts, by simp [hcs], hd, Or.inr rfl, hu,
                    Or.inr ⟨t, ts, rfl, ht⟩⟩
        · rw [h1] at hrest
          simp only [Option.orElse] at hrest
          rcases h3 : consumeUuid rest1 with _ | tail
          · rw [h3] at hrest; simp at hrest
          · rw [h3] at hrest
            obtain ⟨u, rfl, hu⟩ := (consumeUuid_eq_some _ _).mp h3
            have hcs := (consumeLit_eq_some _ _ _).mp h1
            cases tail with
            | nil =>
                exact ⟨c, _, u, [], by simp [hcs], hd, Or.inl rfl, hu, Or.inl rfl⟩
            | cons t ts =>
                have ht : t = '&' ∨ t = ',' := by
                  rcases Bool.or_eq_true _ _ |>.mp hrest with h | h
                  · exact Or.inl (by simpa using h)
                  · exact Or.inr (by simpa using h)
                exact ⟨c, _, u, t :: ts, by simp [hcs], hd, Or.inl rfl, hu,
                  Or.inr ⟨t, ts, rfl, ht⟩⟩
      · rintro ⟨d, marker, u, post, heq, hd, hm, hu, hp⟩
        obtain ⟨rfl, rfl⟩ : c = d ∧ cs = marker ++ (u ++ post) := by simpa using heq
        rw [Bool.and_eq_true]
        constructor
        · rcases hd with rfl | rfl <;> simp
        · have hpost : consumeUuid (u ++ post) = some post :=
            (consumeUuid_eq_some _ _).mpr ⟨u, rfl, hu⟩
          have htail : (match consumeUuid (u ++ post) with
              | none => false
              | some [] => true
              | some (t :: _) => t = '&' || t = ',') = true := by
            rw [hpost]
            rcases hp with rfl | ⟨c2, rest2, rfl, hc2⟩
            · rfl
            · rcases hc2 with rfl | rfl <;> simp
          rcases hm with rfl | rfl
          · have : consumeLit "urn:uuid:".data ("urn:uuid:".data ++ (u ++ post)) =
                some (u ++ post) := (consumeLit_eq_some _ _ _).mpr rfl
            rw [this]
            simpa [Option.orElse] using htail
          · have hfail := urn_markers_disjoint (u ++ post)
            have : consumeLit "urn%3Auuid%3A".data ("urn%3Auuid%3A".data ++ (u ++ post)) =
                some (u ++ post) := (consumeLit_eq_some _ _ _).mpr rfl
            rw [hfail, this]
            simpa [Option.orElse] using htail



theorem hasTempIDChars_iff (l : List Char) :
    hasTempIDChars l = true ↔ ∃ pre suf, l = pre ++ suf ∧ tempIdAt suf = true := by
  induction l with
  | nil =>
      simp only [hasTempIDChars]
      constructor
      · intro h; cases h
      · rintro ⟨pre, suf, heq, h⟩
        have : suf = [] := by
          cases pre <;> simp_all
        subst this
        simp [tempIdAt] at h
  | cons c cs ih =>
      simp only [hasTempIDChars, Bool.or_eq_true, ih]
      constructor
      · rintro (h | ⟨pre, suf, rfl, h⟩)
        · exact ⟨[], c :: cs, rfl, h⟩
        · exact ⟨c :: pre, suf, rfl, h⟩
      · rintro ⟨pre, suf, heq, h⟩
        cases pre with
        | nil =>
            left
            have : suf = c :: cs := by simpa using heq.symm
            rwa [← this]
        | cons p ps =>
            right
            have hx : c = p ∧ cs = ps ++ suf := by simpa using heq
            exact ⟨ps, suf, hx.2, h⟩

/-- C9: hasTempID matches exactly the strings containing a urn:uuid: (or
percent-encoded) UUID immediately preceded by = or , and immediately followed
by &, a comma or the end of the string; in particular the urn:uuid inside a
token value after a | separator is not treated as a temporary id. -/
theorem C9_hasTempID_characterisation (s : String) :
    (hasTempID s = true ↔ HasTempIdSpec s) ∧
    hasTempID
      "Patient?identifier=urn:oid:0.1.2.3.4.5.6.7|urn:uuid:6002c2ab-9571-4db7-9a79-87163475b071"
      = false := by
  constructor
  · unfold hasTempID HasTempIdSpec
    rw [hasTempIDChars_iff]
    constructor
    · rintro ⟨pre, suf, heq, h⟩
      rw [tempIdAt_iff] at h
      obtain ⟨d, marker, u, post, rfl, hd, hm, hu, hp⟩ := h
      exact ⟨pre, d, marker, u, post, heq, hd, hm, hu, hp⟩
    · rintro ⟨pre, d, marker, u, post, heq, hd, hm, hu, hp⟩
      exact ⟨pre, d :: (marker ++ (u ++ post)), heq,
        (tempIdAt_iff _).mpr ⟨d, marker, u, post, rfl, hd, hm, hu, hp⟩⟩
  · decide



theorem insertByVersionDesc_perm (r : PrevRecord) (l : List PrevRecord) :
    (insertByVersionDesc r l).Perm (r :: l) := by
  induction l with
  | nil => simp [insertByVersionDesc]
  | cons x xs ih =>
      simp only [insertByVersionDesc]
      by_cases hc : r.version ≥ x.version
      · simp [hc]
      · rw [if_neg hc]
        exact (ih.cons x).trans (List.Perm.swap r x xs)

theorem sortPrevDesc_perm (l : List PrevRecord) : (sortPrevDesc l).Perm l := by
  induction l with
  | nil => simp [sortPrevDesc]
  | cons x xs ih =>
      simp only [sortPrevDesc, List.foldr_cons]
      exact (insertByVersionDesc_perm x (xs.foldr insertByVersionDesc [])).trans (ih.cons x)

theorem chain_insertByVersionDesc (r : PrevRecord) (l : List PrevRecord)
    (h : List.Chain' (fun a b => b.version ≤ a.version) l) :
    List.Chain' (fun a b => b.version ≤ a.version) (insertByVersionDesc r l) := by
  induction l with
  | nil => simp [insertByVersionDesc]
  | cons x xs ih =>
      simp only [insertByVersionDesc]
      by_cases hc : r.version ≥ x.version
      · rw [if_pos hc]
        exact List.Chain'.cons hc h
      · rw [if_neg hc]
        rw [List.chain'_cons']
        refine ⟨?_, ih h.tail⟩
        intro b hb
        cases xs with
        | nil =>
            simp [insertByVersionDesc] at hb
            subst hb
            omega
        | cons y ys =>
            simp only [insertByVersionDesc] at hb
            by_cases hcy : r.version ≥ y.version
            · rw [if_pos hcy] at hb
              simp at hb
              subst hb
              omega
            · rw [if_neg hcy] at hb
              simp at hb
              subst hb
              exact (List.chain'_cons.mp h).1

theorem chain_sortPrevDesc (l : List PrevRecord) :
    List.Chain' (fun a b => b.version ≤ a.version) (sortPrevDesc l) := by
  induction l with
  | nil => simp [sortPrevDesc]
  | cons x xs ih =>
      simp only [sortPrevDesc, List.foldr_cons]
      exact chain_insertByVersionDesc x _ ih

theorem chain_getLast_le (l : List PrevRecord)
    (h : List.Chain' (fun a b => b.version ≤ a.version) l) :
    ∀ hne : l ≠ [], ∀ p ∈ l, (l.getLast hne).version ≤ p.version := by
  induction l with
  | nil => intro hne; exact absurd rfl hne
  | cons x xs ih =>
      intro hne p hp
      cases xs with
      | nil =>
          simp at hp
          subst hp
          simp
      | cons y ys =>
          rw [List.getLast_cons (by simp)]
          rcases List.mem_cons.mp hp with rfl | hp2
          · have hhead := (List.chain'_cons.mp h).1
            have := ih h.tail (by simp) y (by simp)
            omega
          · exact ih h.tail (by simp) p hp2

theorem chain_lt_of_chain_ge_nodup (l : List PrevRecord)
    (hc : List.Chain' (fun a b => b.version ≤ a.version) l)
    (hn : (l.map (fun r => r.version)).Nodup) :
    List.Chain' (fun a b => b.version < a.version) l := by
  induction l with
  | nil => simp
  | cons x xs ih =>
      rw [List.chain'_cons'] at hc ⊢
      rw [List.map_cons, List.nodup_cons] at hn
      refine ⟨?_, ih hc.2 hn.2⟩
      intro b hb
      have h1 := hc.1 b hb
      have hbm : b ∈ xs := List.mem_of_mem_head? hb
      have h2 : b.version ∈ xs.map (fun r => r.version) := List.mem_map_of_mem _ hbm
      have h3 : x.version ≠ b.version := fun he => hn.1 (he ▸ h2)
      omega

theorem rewriteLastToPost_length (l : List HistoryEntry) (h : l ≠ []) :
    (rewriteLastToPost l).length = l.length := by
  cases l with
  | nil => exact absurd rfl h
  | cons x xs => simp [rewriteLastToPost]

theorem rewriteLastToPost_getLast (l : List HistoryEntry) (h : l ≠ []) :
    (rewriteLastToPost l).getLast?.map (fun e => e.method) = some "POST" := by
  cases l with
  | nil => exact absurd rfl h
  | cons x xs => simp [rewriteLastToPost, List.getLast?_concat]

theorem mem_rewriteLastToPost (l : List HistoryEntry) (e : HistoryEntry)
    (he : e ∈ rewriteLastToPost l) : e ∈ l ∨ e.method = "POST" := by
  cases l with
  | nil => simp [rewriteLastToPost] at he
  | cons x xs =>
      simp only [rewriteLastToPost, List.mem_append, List.mem_singleton] at he
      rcases he with h1 | h1
      · exact Or.inl ((List.dropLast_sublist (x :: xs)).subset h1)
      · subst h1
        exact Or.inr rfl

theorem countP_rewriteLastToPost (l : List HistoryEntry) (h : l ≠ [])
    (hlast : ∀ e, l.getLast? = some e → (e.method == "DELETE") = false) :
    (rewriteLastToPost l).countP (fun e => e.method == "DELETE")
      = l.countP (fun e => e.method == "DELETE") := by
  have hglast : l.getLast? = some (l.getLast h) := List.getLast?_eq_getLast l h
  have hdel : ((l.getLast h).method == "DELETE") = false := hlast _ hglast
  have hsplit : l.dropLast ++ [l.getLast h] = l := List.dropLast_concat_getLast h
  have hrw : rewriteLastToPost l
      = l.dropLast ++ [⟨"POST", (l.getLast?.map (fun e => e.resource)).join⟩] := by
    cases l with
    | nil => exact absurd rfl h
    | cons x xs => rfl
  rw [hrw]
  conv_rhs => rw [← hsplit]
  rw [List.countP_append, List.countP_append]
  simp [List.countP_cons, hdel]

/-- C5: For a store holding at least one current or previous version of an id
(with well-formed vermongo state: distinct archived versions, the current
version newer than every archived one, and the oldest archived record not a
tombstone), History returns a bundle of type "history" whose Total equals the
number of entries, whose records are ordered newest version first, whose last
(oldest) entry has request method POST, in which deletions appear as DELETE
entries without a resource, and whose DELETE-entry count equals the number of
tombstones; when no version exists it fails with NotFound. -/
theorem C5_history (s : Store)
    (hnodup : (s.prev.map (fun r => r.version)).Nodup)
    (hcur : ∀ d, s.current = some d →
      ∀ p ∈ s.prev, p.version < (match d.versionId with | some v => v | none => 0))
    (hmin : ∀ p ∈ s.prev, (∀ q ∈ s.prev, p.version ≤ q.version) → p.deleted = false) :
    (History s = .error DalError.notFound ↔ s.current = none ∧ s.prev = []) ∧
    ∀ b, History s = .ok b →
      b.type = "history" ∧
      b.total = b.entries.length ∧
      b.entries = rewriteLastToPost ((histRecords s).map histEntryOfRecord) ∧
      List.Chain' (fun a c => c.version < a.version) (histRecords s) ∧
      b.entries.getLast?.map (fun e => e.method) = some "POST" ∧
      b.entries.countP (fun e => e.method == "DELETE") = s.prev.countP (fun r => r.deleted) ∧
      (∀ e ∈ b.entries, e.method = "DELETE" → e.resource = none) := by
  have hlenp : (sortPrevDesc s.prev).length = s.prev.length := (sortPrevDesc_perm s.prev).length_eq
  have hmemp : ∀ p, p ∈ sortPrevDesc s.prev ↔ p ∈ s.prev :=
    fun p => (sortPrevDesc_perm s.prev).mem_iff
  constructor
  · constructor
    · intro h
      simp only [History] at h
      by_cases hlen : (((histRecords s).map histEntryOfRecord).length == 0) = true
      · have hlen0 : (histRecords s).length = 0 := by simpa using hlen
        have hrec : histRecords s = [] := List.length_eq_zero.mp hlen0
        unfold histRecords at hrec
        obtain ⟨hc, hp⟩ := List.append_eq_nil.mp hrec
        constructor
        · cases hs : s.current with
          | none => rfl
          | some d => rw [hs] at hc; cases hc
        · have hlp : s.prev.length = 0 := by rw [← hlenp, hp]; rfl
          exact List.length_eq_zero.mp hlp
      · rw [if_neg hlen] at h
        cases h
    · rintro ⟨h1, h2⟩
      simp [History, histRecords, sortPrevDesc, h1, h2]
  · intro b hb
    simp only [History] at hb
    by_cases hlen : (((histRecords s).map histEntryOfRecord).length == 0) = true
    · rw [if_pos hlen] at hb
      cases hb
    · rw [if_neg hlen] at hb
      cases hb
      have hrne : histRecords s ≠ [] := by
        intro hnil
        exact hlen (by simp [hnil])
      have hentne : (histRecords s).map histEntryOfRecord ≠ [] := by
        simpa using hrne
      refine ⟨rfl, (rewriteLastToPost_length _ hentne).symm, rfl, ?_, ?_, ?_, ?_⟩
      · -- newest-first ordering of the records
        have hchainp := chain_sortPrevDesc s.prev
        have hnodupp : ((sortPrevDesc s.prev).map (fun r => r.version)).Nodup :=
          (((sortPrevDesc_perm s.prev).map (fun r => r.version)).nodup_iff).mpr hnodup
        have hltp := chain_lt_of_chain_ge_nodup _ hchainp hnodupp
        unfold histRecords
        cases hs : s.current with
        | none => simpa using hltp
        | some d =>
            simp only [List.singleton_append]
            rw [List.chain'_cons']
            refine ⟨?_, hltp⟩
            intro p hp
            have hpm : p ∈ sortPrevDesc s.prev := List.mem_of_mem_head? hp
            exact hcur d hs p ((hmemp p).mp hpm)
      · exact rewriteLastToPost_getLast _ hentne
      · -- DELETE entries count the tombstones
        have hlastrec : ∀ e, ((histRecords s).map histEntryOfRecord).getLast? = some e →
            (e.method == "DELETE") = false := by
          intro e he
          rw [List.getLast?_map] at he
          obtain ⟨r, hr, he2⟩ := Option.map_eq_some'.mp he
          subst he2
          have hrdel : r.deleted = false := by
            cases hp : s.prev with
            | nil =>
                cases hs : s.current with
                | none =>
                    rw [histRecords, hs, hp] at hr
                    simp [sortPrevDesc] at hr
                | some d =>
                    rw [histRecords, hs, hp] at hr
                    simp [sortPrevDesc] at hr
                    rw [← hr]
            | cons x xs =>
                have hspne : sortPrevDesc s.prev ≠ [] := by
                  intro hnil
                  rw [hnil, hp] at hlenp
                  simp at hlenp
                have hr2 : (sortPrevDesc s.prev).getLast? = some r := by
                  rw [histRecords] at hr
                  cases hs : s.current with
                  | none => rw [hs, List.nil_append] at hr; exact hr
                  | some d =>
                      rw [hs, List.singleton_append] at hr
                      cases hsp : sortPrevDesc s.prev with
                      | nil => exact absurd hsp hspne
                      | cons y ys =>
                          rw [hsp] at hr
                          rw [List.getLast?_cons_cons] at hr
                          exact hr
                have hgl : (sortPrevDesc s.prev).getLast? =
                    some ((sortPrevDesc s.prev).getLast hspne) :=
                  List.getLast?_eq_getLast _ hspne
                rw [hgl] at hr2
                have hreq : r = (sortPrevDesc s.prev).getLast hspne := by
                  cases hr2
                  rfl
                have hrm : r ∈ s.prev := by
                  rw [hreq]
                  exact (hmemp _).mp (List.getLast_mem hspne)
                refine hmin r hrm ?_
                intro q hq
                rw [hreq]
                exact chain_getLast_le _ (chain_sortPrevDesc s.prev) hspne q ((hmemp q).mpr hq)
          simp [histEntryOfRecord, hrdel]
        rw [countP_rewriteLastToPost _ hentne hlastrec]
        rw [List.countP_map]
        have hcongr : (histRecords s).countP
              ((fun e => e.method == "DELETE") ∘ histEntryOfRecord)
            = (histRecords s).countP (fun r => r.deleted) := by
          apply List.countP_congr
          intro r hr
          by_cases hd : r.deleted
          · simp [Function.comp, histEntryOfRecord, hd]
          · simp [Function.comp, histEntryOfRecord, hd]
        rw [hcongr]
        unfold histRecords
        rw [List.countP_append]
        have hperm := (sortPrevDesc_perm s.prev).countP_eq (fun r => r.deleted)
        cases hs : s.current with
        | none => simpa using hperm
        | some d => simp [List.countP_cons, hperm]
      · -- DELETE entries carry no resource
        intro e he hdel
        rcases mem_rewriteLastToPost _ _ he with h1 | h1
        · obtain ⟨r, hr, he2⟩ := List.mem_map.mp h1
          subst he2
          by_cases hd : r.deleted
          · simp [histEntryOfRecord, hd]
          · simp [histEntryOfRecord, hd] at hdel
        · rw [h1] at hdel
          exact absurd hdel (by decide)

/-- C5 witness: on a store holding a version-1 creation and a version-2
deletion tombstone, History returns the concrete two-entry bundle histBundleEx
with the stated properties. -/
theorem C5_history_witness :
    History histStoreEx = Except.ok histBundleEx ∧
    histBundleEx.type = "history" ∧
    histBundleEx.total = histBundleEx.entries.length ∧
    histBundleEx.entries = rewriteLastToPost ((histRecords histStoreEx).map histEntryOfRecord) ∧
    List.Chain' (fun a c => c.version < a.version) (histRecords histStoreEx) ∧
    histBundleEx.entries.getLast?.map (fun e => e.method) = some "POST" ∧
    histBundleEx.entries.countP (fun e => e.method == "DELETE")
      = histStoreEx.prev.countP (fun r => r.deleted) ∧
    (∀ e ∈ histBundleEx.entries, e.method = "DELETE" → e.resource = none) := by
  have h := C5_history histStoreEx (by decide)
    (fun d hd => Option.noConfusion hd) (by decide)
  exact ⟨by decide, h.2 histBundleEx (by decide)⟩


theorem provTargetRefs_ok (eh : Bool) (results : List EntryResult) (ts : List String)
    (h : provTargetRefs eh results = .ok ts) :
    ts = (results.filterMap (fun r => r.resource)).map (fun res =>
      res.resourceType ++ "/" ++ res.id ++
        (if eh then "/_history/" ++ (toString (res.versionId.getD 0)) else "")) := by
  induction results generalizing ts with
  | nil =>
      simp only [provTargetRefs] at h
      cases h
      simp
  | cons r rest ih =>
      simp only [provTargetRefs] at h
      cases hres : r.resource with
      | none =>
          simp only [hres] at h
          simp only [List.filterMap_cons, hres]
          exact ih ts h
      | some res =>
          simp only [hres] at h
          by_cases h1 : (res.resourceType == "") = true
          · rw [if_pos h1] at h; cases h
          · rw [if_neg h1] at h
            by_cases h2 : (res.id == "") = true
            · rw [if_pos h2] at h; cases h
            · rw [if_neg h2] at h
              by_cases h3 : (eh && res.versionId == none) = true
              · rw [if_pos h3] at h; cases h
              · rw [if_neg h3] at h
                cases hrec : provTargetRefs eh rest with
                | error e => rw [hrec] at h; cases h
                | ok more =>
                    rw [hrec] at h
                    cases h
                    simp only [List.filterMap_cons, hres, List.map_cons]
                    rw [ih more hrec]

/-- C8 counterexample: in a transaction whose single POST entry carries an
If-None-Exist query matching one existing Patient (staged 200, no write), the
synthesised provenance target array still references that Patient, so the
targets are not exactly the written resources. -/
theorem C8_provenance_targets_counterexample :
    ¬ ProvenanceTargetsClaim true (some provHeaderJson) "p1" [provEntry] provDb := by
  intro h
  have h2 := h provDb [⟨"200", some ⟨"Patient", "a", some 1, "existing"⟩, false⟩]
    (provDb ++ [("p1", ⟨"Provenance", "p1", some 1, "provenance"⟩)])
    [⟨"200", some ⟨"Patient", "a", some 1, "existing"⟩, false⟩]
    ⟨some (JFields.cons "resourceType" (Json.str "Provenance") JFields.nil,
      ["Patient/a/_history/1"]), some ("Provenance/" ++ "p1")⟩
    (JFields.cons "resourceType" (Json.str "Provenance") JFields.nil)
    ["Patient/a/_history/1"]
    rfl rfl rfl
  exact absurd h2 (by decide)

/-- C8: the X-Provenance header is accepted only when it is a JSON object
whose resourceType is Provenance and which contains no target (absence of the
header is fine); on acceptance the synthesised target array holds one
Type/id[/_history/v] reference for every entry result carrying a resource —
including 200 conditional-create results that wrote nothing — the resulting
Provenance resource is stored under the fresh id and its location
Provenance/id is reported; a batch bundle rejects the header. -/
theorem C8_provenance_header (enableHistory : Bool) (provId : String)
    (results : List EntryResult) (db : Database) :
    (processProvenanceHeader enableHistory none provId results db = (db, .ok ⟨none, none⟩)) ∧
    (∀ s, ∃ err, processProvenanceHeader enableHistory (some (.str s)) provId results db
      = (db, .error err)) ∧
    (∀ fields rt, fields.lookup "resourceType" = some (.str rt) → rt ≠ "Provenance" →
      ∃ err, processProvenanceHeader enableHistory (some (.obj fields)) provId results db
        = (db, .error err)) ∧
    (∀ fields t, fields.lookup "resourceType" = some (.str "Provenance") →
      fields.lookup "target" = some t →
      ∃ err, processProvenanceHeader enableHistory (some (.obj fields)) provId results db
        = (db, .error err)) ∧
    (∀ fields targets, fields.lookup "resourceType" = some (.str "Provenance") →
      fields.lookup "target" = none →
      provTargetRefs enableHistory results = .ok targets →
      dbGet db provId = none →
      processProvenanceHeader enableHistory (some (.obj fields)) provId results db =
        (db ++ [(provId, ⟨"Provenance", provId, some 1, "provenance"⟩)],
         .ok ⟨some (fields, targets), some ("Provenance/" ++ provId)⟩) ∧
      targets = (results.filterMap (fun r => r.resource)).map (fun res =>
        res.resourceType ++ "/" ++ res.id ++
          (if enableHistory then "/_history/" ++ (toString (res.versionId.getD 0)) else ""))) ∧
    (batchProvenanceCheck "batch" true).isSome = true ∧
    batchProvenanceCheck "transaction" true = none := by
  refine ⟨rfl, ?_, ?_, ?_, ?_, by decide, by decide⟩
  · intro s
    exact ⟨_, rfl⟩
  · intro fields rt hrt hne
    simp only [processProvenanceHeader, hrt]
    have : (rt != "Provenance") = true := by
      simp [bne, hne]
    rw [if_pos this]
    exact ⟨_, rfl⟩
  · intro fields t hrt ht
    simp only [processProvenanceHeader, hrt]
    rw [if_neg (by simp [bne]), ht]
    exact ⟨_, rfl⟩
  · intro fields targets hrt hnt hrefs hfresh
    constructor
    · simp only [processProvenanceHeader, hrt, hnt]
      rw [if_neg (by simp [bne]), hrefs]
      simp only [dalPostWithID, hfresh]
      simp
    · exact provTargetRefs_ok enableHistory results targets hrefs

/-- C8 witness: with enableHistory, a valid minimal header, a fresh
provenance id and a single 200 entry result holding the existing Patient, the
header is accepted, the Provenance resource is appended to the database, the
location header is Provenance/p1, and the single target references the
Patient that was never written. -/
theorem C8_provenance_header_witness :
    processProvenanceHeader true
        (some (.obj (JFields.cons "resourceType" (Json.str "Provenance") JFields.nil)))
        "p1" [⟨"200", some ⟨"Patient", "a", some 1, "existing"⟩, false⟩] provDb =
      (provDb ++ [("p1", ⟨"Provenance", "p1", some 1, "provenance"⟩)],
       .ok ⟨some (JFields.cons "resourceType" (Json.str "Provenance") JFields.nil,
         ["Patient/a/_history/1"]), some ("Provenance/" ++ "p1")⟩) ∧
    ["Patient/a/_history/1"] =
      (([⟨"200", some ⟨"Patient", "a", some 1, "existing"⟩, false⟩] :
          List EntryResult).filterMap (fun r => r.resource)).map (fun res =>
        res.resourceType ++ "/" ++ res.id ++
          (if true then "/_history/" ++ (toString (res.versionId.getD 0)) else "")) :=
  (C8_provenance_header true "p1"
      [⟨"200", some ⟨"Patient", "a", some 1, "existing"⟩, false⟩] provDb).2.2.2.2.1
    (JFields.cons "resourceType" (Json.str "Provenance") JFields.nil)
    ["Patient/a/_history/1"] rfl rfl rfl rfl


theorem scanSpecialKeys_props (n : Nat) : ∀ l : BFields, bfieldsMeasure l ≤ n →
    ∀ t p o res, scanSpecialKeys l (t, p, o) = .ok res →
      (o = true → res.2.2.2 = true) ∧
      (∀ early, res.1 = some early → jsonNoStripped early = true) := by
  induction n with
  | zero =>
      intro l hl
      cases l with
      | nil =>
          intro t p o res h
          cases h
          exact ⟨fun ho => ho, fun early he => by cases he⟩
      | cons k v rest =>
          intro t p o res h
          simp [bfieldsMeasure] at hl
  | succ n ih =>
      intro l hl
      cases l with
      | nil =>
          intro t p o res h
          cases h
          exact ⟨fun ho => ho, fun early he => by cases he⟩
      | cons k v rest =>
          intro t p o res h
          have hrest : bfieldsMeasure rest ≤ n := by
            simp [bfieldsMeasure] at hl
            omega
          simp only [scanSpecialKeys] at h
          by_cases h1 : (k == "__strNum") = true
          · rw [if_pos h1] at h
            cases v with
            | str s =>
                cases h
                exact ⟨fun ho => ho, fun early he => by cases he; rfl⟩
            | int m => cases h
            | double tok => cases h
            | instant tok => cases h
            | bool b => cases h
            | null => cases h
            | doc f => cases h
            | arr a => cases h
          · rw [if_neg h1] at h
            by_cases h2 : (k == "__strDate") = true
            · rw [if_pos h2] at h
              cases v with
              | str s =>
                  cases h
                  exact ⟨fun ho => ho, fun early he => by cases he; rfl⟩
              | int m => cases h
              | double tok => cases h
              | instant tok => cases h
              | bool b => cases h
              | null => cases h
              | doc f => cases h
              | arr a => cases h
            · rw [if_neg h2] at h
              by_cases h3 : (k == "time") = true
              · rw [if_pos h3] at h
                cases v with
                | instant tok => exact ih rest hrest tok p o res h
                | str s => exact ih rest hrest t p o res h
                | int m => exact ih rest hrest t p o res h
                | double tok => exact ih rest hrest t p o res h
                | bool b => exact ih rest hrest t p o res h
                | null => exact ih rest hrest t p o res h
                | doc f => exact ih rest hrest t p o res h
                | arr a => exact ih rest hrest t p o res h
              · rw [if_neg h3] at h
                by_cases h4 : (k == "precision") = true
                · rw [if_pos h4] at h
                  cases v with
                  | str s => exact ih rest hrest t s o res h
                  | int m => exact ih rest hrest t p o res h
                  | double tok => exact ih rest hrest t p o res h
                  | instant tok => exact ih rest hrest t p o res h
                  | bool b => exact ih rest hrest t p o res h
                  | null => exact ih rest hrest t p o res h
                  | doc f => exact ih rest hrest t p o res h
                  | arr a => exact ih rest hrest t p o res h
                · rw [if_neg h4] at h
                  have hres := ih rest hrest t p true res h
                  exact ⟨fun _ => hres.1 rfl, hres.2⟩

/-- The conversion inlined into processExtensionElems equals processDocument
on the reconstructed extension document (the demoted url field followed by
the sub-document's fields): a url field never matches a special key, always
sets otherFields, and is emitted first. -/
theorem processDocument_reconstructed (url : String) (subsub : BFields) :
    processDocument (.cons "url" (.str url) subsub) =
      match scanSpecialKeys subsub ("", "", true) with
      | .error e => .error e
      | .ok (some early, _) => .ok early
      | .ok (none, _) =>
          match emitFields subsub with
          | .error e => .error e
          | .ok restJ => .ok (.obj (.cons "url" (.str url) restJ)) := by
  have hscan : scanSpecialKeys (.cons "url" (.str url) subsub) ("", "", false)
      = scanSpecialKeys subsub ("", "", true) := by
    simp [scanSpecialKeys]
  have hemit : emitFields (.cons "url" (.str url) subsub)
      = match emitFields subsub with
        | .error e => .error e
        | .ok restJ => .ok (.cons "url" (.str url) restJ) := by
    cases he : emitFields subsub with
    | error e =>
        simp [emitFields, he, processValue,
          show docIncluded "url" = false from rfl,
          show strStartsWith "url" "_lookup" = false from rfl]
    | ok restJ =>
        simp [emitFields, he, processValue,
          show docIncluded "url" = false from rfl,
          show strStartsWith "url" "_lookup" = false from rfl]
  simp only [processDocument, processValue]
  rw [hscan]
  cases hs : scanSpecialKeys subsub ("", "", true) with
  | error e => rfl
  | ok res =>
      obtain ⟨early?, t, p, o⟩ := res
      cases early? with
      | some early => rfl
      | none =>
          have ho : o = true :=
            (scanSpecialKeys_props (bfieldsMeasure subsub) subsub le_rfl "" "" true _ hs).1 rfl
          subst ho
          show (if (t != "" && p != "" && (true == false)) = true then Except.ok (Json.str t)
              else match emitFields (BFields.cons "url" (Bson.str url) subsub) with
                | Except.error e => Except.error e
                | Except.ok fields => Except.ok (Json.obj fields))
            = (match emitFields subsub with
                | Except.error e => Except.error e
                | Except.ok restJ => Except.ok (Json.obj (JFields.cons "url" (Json.str url) restJ)))
          rw [if_neg (by simp)]
          rw [hemit]
          cases he2 : emitFields subsub <;> rfl

/-- The conversion inlined into processIncludedElems equals the full egress
converter ConvertGoFhirBSONToJSON. -/
theorem convertGoFhirBSONToJSON_elem (ff : BFields) :
    ConvertGoFhirBSONToJSON ff =
      match decryptBSONCheck ff with
      | .error e => .error e
      | .ok () =>
          match processIncludedFields ff with
          | .error e => .error e
          | .ok included =>
              match processValue (.doc ff) with
              | .error e => .error e
              | .ok j => .ok (j, included.getD []) := rfl

theorem bsonMeasure_pos (v : Bson) : 1 ≤ bsonMeasure v := by
  cases v <;> simp [bsonMeasure]

theorem processIncludedFields_cons (k : String) (v : Bson) (rest : BFields) :
    processIncludedFields (BFields.cons k v rest)
      = (if docIncluded k = true then
          match v with
          | Bson.arr a =>
            match processIncludedElems a with
            | Except.error e => Except.error e
            | Except.ok none => Except.ok none
            | Except.ok (some docs) =>
                match processIncludedFields rest with
                | Except.error e => Except.error e
                | Except.ok none => Except.ok none
                | Except.ok (some more) => Except.ok (some (docs ++ more))
          | _ => Except.error "panic: _included value is not an array"
        else processIncludedFields rest) := by
  rw [processIncludedFields.eq_def]

theorem egress_no_stripped (n : Nat) :
    (∀ f : BFields, bfieldsMeasure f ≤ n → ∀ out, emitFields f = .ok out →
      jfieldsNoStripped out = true) ∧
    (∀ v : Bson, bsonMeasure v ≤ n → ∀ out, processValue v = .ok out →
      jsonNoStripped out = true) ∧
    (∀ e : BElems, belemsMeasure e ≤ n → ∀ out, processArray e = .ok out →
      jelemsNoStripped out = true) ∧
    (∀ v : Bson, bsonMeasure v ≤ n → ∀ out, processExtensionsArray v = .ok out →
      jsonNoStripped out = true) ∧
    (∀ e : BElems, belemsMeasure e ≤ n → ∀ out, processExtensionElems e = .ok out →
      jelemsNoStripped out = true) ∧
    (∀ f : BFields, bfieldsMeasure f ≤ n → ∀ out, processIncludedFields f = .ok out →
      (out.getD []).all (fun j => jsonNoStripped j) = true) ∧
    (∀ e : BElems, belemsMeasure e ≤ n → ∀ out, processIncludedElems e = .ok out →
      (out.getD []).all (fun j => jsonNoStripped j) = true) := by
  induction n with
  | zero =>
      refine ⟨?_, ?_, ?_, ?_, ?_, ?_, ?_⟩
      · intro f hf out h
        cases f with
        | nil => cases h; rfl
        | cons k v rest =>
            have hm : 1 + bsonMeasure v + bfieldsMeasure rest ≤ 0 := hf
            omega
      · intro v hv out h
        have := bsonMeasure_pos v
        omega
      · intro e he out h
        cases e with
        | nil => cases h; rfl
        | cons v rest =>
            have hm : 1 + bsonMeasure v + belemsMeasure rest ≤ 0 := he
            omega
      · intro v hv out h
        have := bsonMeasure_pos v
        omega
      · intro e he out h
        cases e with
        | nil => cases h; rfl
        | cons v rest =>
            have hm : 1 + bsonMeasure v + belemsMeasure rest ≤ 0 := he
            omega
      · intro f hf out h
        cases f with
        | nil => cases h; rfl
        | cons k v rest =>
            have hm : 1 + bsonMeasure v + bfieldsMeasure rest ≤ 0 := hf
            omega
      · intro e he out h
        cases e with
        | nil => cases h; rfl
        | cons v rest =>
            have hm : 1 + bsonMeasure v + belemsMeasure rest ≤ 0 := he
            omega
  | succ n ih =>
      obtain ⟨ihA, ihB, ihC, ihD, ihE, ihF, ihG⟩ := ih
      refine ⟨?_, ?_, ?_, ?_, ?_, ?_, ?_⟩
      · -- emitFields
        intro f hf out h
        cases f with
        | nil => cases h; rfl
        | cons k v rest =>
            have hm : 1 + bsonMeasure v + bfieldsMeasure rest ≤ n + 1 := hf
            have hstep : emitFields (BFields.cons k v rest)
                = (if (k == "reference__id" || k == "reference__type"
                      || k == "reference__external") = true then emitFields rest
                  else if docIncluded k = true then emitFields rest
                  else if strStartsWith k "_lookup" = true then emitFields rest
                  else if (k == "extension" || k == "modifierExtension") = true then
                    match processExtensionsArray v with
                    | Except.error e => Except.error e
                    | Except.ok j =>
                        match emitFields rest with
                        | Except.error e => Except.error e
                        | Except.ok restJ => Except.ok (JFields.cons k j restJ)
                  else
                    match processValue v with
                    | Except.error e => Except.error e
                    | Except.ok j =>
                        match emitFields rest with
                        | Except.error e => Except.error e
                        | Except.ok restJ => Except.ok (JFields.cons
                            (if k == "_id" then "id"
                             else if k == "__id" then "_id" else k) j restJ)) := by
              rw [emitFields.eq_def]
            replace h := hstep.symm.trans h
            by_cases g1 : (k == "reference__id" || k == "reference__type"
                || k == "reference__external") = true
            · rw [if_pos g1] at h
              exact ihA rest (by omega) out h
            · rw [if_neg g1] at h
              by_cases g2 : docIncluded k = true
              · rw [if_pos g2] at h
                exact ihA rest (by omega) out h
              · rw [if_neg g2] at h
                by_cases g3 : strStartsWith k "_lookup" = true
                · rw [if_pos g3] at h
                  exact ihA rest (by omega) out h
                · rw [if_neg g3] at h
                  by_cases g4 : (k == "extension" || k == "modifierExtension") = true
                  · rw [if_pos g4] at h
                    cases hpe : processExtensionsArray v with
                    | error e => rw [hpe] at h; cases h
                    | ok j =>
                        rw [hpe] at h
                        cases her : emitFields rest with
                        | error e => rw [her] at h; cases h
                        | ok restJ =>
                            rw [her] at h
                            cases h
                            have hk : strippedKey k = false := by
                              rw [Bool.or_eq_true] at g4
                              rcases g4 with hx | hx
                              · have hk2 : k = "extension" := eq_of_beq hx
                                subst hk2
                                decide
                              · have hk2 : k = "modifierExtension" := eq_of_beq hx
                                subst hk2
                                decide
                            have hj := ihD v (by omega) j hpe
                            have hr := ihA rest (by omega) restJ her
                            show (!strippedKey k && jsonNoStripped j
                              && jfieldsNoStripped restJ) = true
                            rw [hk, hj, hr]
                            rfl
                  · rw [if_neg g4] at h
                    cases hpv : processValue v with
                    | error e => rw [hpv] at h; cases h
                    | ok j =>
                        rw [hpv] at h
                        cases her : emitFields rest with
                        | error e => rw [her] at h; cases h
                        | ok restJ =>
                            rw [her] at h
                            cases h
                            have hj := ihB v (by omega) j hpv
                            have hr := ihA rest (by omega) restJ her
                            simp only [Bool.not_eq_true] at g1 g2 g3
                            rw [Bool.or_eq_false_iff] at g1
                            obtain ⟨ga, gc⟩ := g1
                            rw [Bool.or_eq_false_iff] at ga
                            obtain ⟨ga, gb⟩ := ga
                            have hbk : strippedKey
                                (if k == "_id" then "id"
                                 else if k == "__id" then "_id" else k) = false := by
                              by_cases hid : (k == "_id") = true
                              · rw [if_pos hid]
                                decide
                              · rw [if_neg hid]
                                by_cases hid2 : (k == "__id") = true
                                · rw [if_pos hid2]
                                  decide
                                · rw [if_neg hid2]
                                  simp [strippedKey, ga, gb, gc, g2, g3]
                            show (!strippedKey
                                (if k == "_id" then "id"
                                 else if k == "__id" then "_id" else k)
                              && jsonNoStripped j && jfieldsNoStripped restJ) = true
                            rw [hbk, hj, hr]
                            rfl
      · -- processValue
        intro v hv out h
        cases v with
        | str s => cases h; rfl
        | int m => cases h; rfl
        | double tok => cases h; rfl
        | instant tok => cases h; rfl
        | bool b => cases h; rfl
        | null => cases h; rfl
        | doc f =>
            have hm : 1 + bfieldsMeasure f ≤ n + 1 := hv
            have hstep : processValue (Bson.doc f)
                = (match scanSpecialKeys f ("", "", false) with
                  | Except.error e => Except.error e
                  | Except.ok (some early, _) => Except.ok early
                  | Except.ok (none, (oldTime, oldPrecision, otherFields)) =>
                      if (oldTime != "" && oldPrecision != "" && otherFields == false) = true
                      then Except.ok (Json.str oldTime)
                      else match emitFields f with
                        | Except.error e => Except.error e
                        | Except.ok fields => Except.ok (Json.obj fields)) := by
              rw [processValue.eq_def]
            replace h := hstep.symm.trans h
            cases hs : scanSpecialKeys f ("", "", false) with
            | error e => rw [hs] at h; cases h
            | ok res =>
                rw [hs] at h
                obtain ⟨early?, t, p, o⟩ := res
                cases early? with
                | some early =>
                    cases h
                    exact (scanSpecialKeys_props (bfieldsMeasure f) f le_rfl
                      "" "" false _ hs).2 _ rfl
                | none =>
                    replace h : (if (t != "" && p != "" && o == false) = true
                        then Except.ok (Json.str t)
                        else match emitFields f with
                          | Except.error e => Except.error e
                          | Except.ok fields => Except.ok (Json.obj fields))
                        = Except.ok out := h
                    by_cases hcond : (t != "" && p != "" && o == false) = true
                    · rw [if_pos hcond] at h
                      cases h
                      rfl
                    · rw [if_neg hcond] at h
                      cases hemit : emitFields f with
                      | error e => rw [hemit] at h; cases h
                      | ok fields =>
                          rw [hemit] at h
                          cases h
                          exact ihA f (by omega) fields hemit
        | arr a =>
            have hm : 1 + belemsMeasure a ≤ n + 1 := hv
            have hstep : processValue (Bson.arr a)
                = (match processArray a with
                  | Except.error e => Except.error e
                  | Except.ok es => Except.ok (Json.arr es)) := by
              rw [processValue.eq_def]
            replace h := hstep.symm.trans h
            cases hpa : processArray a with
            | error e => rw [hpa] at h; cases h
            | ok es =>
                rw [hpa] at h
                cases h
                exact ihC a (by omega) es hpa
      · -- processArray
        intro e he out h
        cases e with
        | nil => cases h; rfl
        | cons v rest =>
            have hm : 1 + bsonMeasure v + belemsMeasure rest ≤ n + 1 := he
            have hstep : processArray (BElems.cons v rest)
                = (match processValue v with
                  | Except.error e => Except.error e
                  | Except.ok j =>
                      match processArray rest with
                      | Except.error e => Except.error e
                      | Except.ok restJ => Except.ok (JElems.cons j restJ)) := by
              rw [processArray.eq_def]
            replace h := hstep.symm.trans h
            cases hpv : processValue v with
            | error er => rw [hpv] at h; cases h
            | ok j =>
                rw [hpv] at h
                cases hpa : processArray rest with
                | error er => rw [hpa] at h; cases h
                | ok restJ =>
                    rw [hpa] at h
                    cases h
                    have hj := ihB v (by omega) j hpv
                    have hr := ihC rest (by omega) restJ hpa
                    show (jsonNoStripped j && jelemsNoStripped restJ) = true
                    rw [hj, hr]
                    rfl
      · -- processExtensionsArray
        intro v hv out h
        cases v with
        | str s => cases h
        | int m => cases h
        | double tok => cases h
        | instant tok => cases h
        | bool b => cases h
        | null => cases h; rfl
        | doc f =>
            have hstep : processExtensionsArray (Bson.doc f)
                = (Except.error "processExtensionsArray: value of unexpected type"
                    : Except String Json) := by
              rw [processExtensionsArray.eq_def]
            cases hstep.symm.trans h
        | arr a =>
            have hm : 1 + belemsMeasure a ≤ n + 1 := hv
            have hstep : processExtensionsArray (Bson.arr a)
                = (match processExtensionElems a with
                  | Except.error e => Except.error e
                  | Except.ok es => Except.ok (Json.arr es)) := by
              rw [processExtensionsArray.eq_def]
            replace h := hstep.symm.trans h
            cases hpe : processExtensionElems a with
            | error er => rw [hpe] at h; cases h
            | ok es =>
                rw [hpe] at h
                cases h
                exact ihE a (by omega) es hpe
      · -- processExtensionElems
        intro e he out h
        cases e with
        | nil => cases h; rfl
        | cons hd rest =>
            have hm : 1 + bsonMeasure hd + belemsMeasure rest ≤ n + 1 := he
            cases hd with
            | str s => cases h
            | int m => cases h
            | double tok => cases h
            | instant tok => cases h
            | bool b => cases h
            | null => cases h
            | arr a =>
                have hstep : processExtensionElems (BElems.cons (Bson.arr a) rest)
                    = (Except.error "processExtensionsArray: element of unexpected type"
                        : Except String JElems) := by
                  rw [processExtensionElems.eq_def]
                cases hstep.symm.trans h
            | doc ff =>
                cases ff with
                | nil =>
                    have hstep : processExtensionElems
                        (BElems.cons (Bson.doc BFields.nil) rest)
                        = (Except.error
                            "processExtensionsArray: element of unexpected length"
                            : Except String JElems) := by
                      rw [processExtensionElems.eq_def]
                    cases hstep.symm.trans h
                | cons kk vv ffrest =>
                    cases vv with
                    | str s =>
                        cases ffrest with
                        | nil => cases h
                        | cons k2 v2 ffrest2 => cases h
                    | int m =>
                        cases ffrest with
                        | nil => cases h
                        | cons k2 v2 ffrest2 => cases h
                    | double tok =>
                        cases ffrest with
                        | nil => cases h
                        | cons k2 v2 ffrest2 => cases h
                    | instant tok =>
                        cases ffrest with
                        | nil => cases h
                        | cons k2 v2 ffrest2 => cases h
                    | bool b =>
                        cases ffrest with
                        | nil => cases h
                        | cons k2 v2 ffrest2 => cases h
                    | null =>
                        cases ffrest with
                        | nil => cases h
                        | cons k2 v2 ffrest2 => cases h
                    | arr a =>
                        cases ffrest with
                        | nil => cases h
                        | cons k2 v2 ffrest2 => cases h
                    | doc subsub =>
                        cases ffrest with
                        | cons k2 v2 ffrest2 =>
                            have hstep : processExtensionElems
                                (BElems.cons (Bson.doc (BFields.cons kk (Bson.doc subsub)
                                  (BFields.cons k2 v2 ffrest2))) rest)
                                = (Except.error
                                    "processExtensionsArray: element of unexpected length"
                                    : Except String JElems) := by
                              rw [processExtensionElems.eq_def]
                            cases hstep.symm.trans h
                        | nil =>
                            have hm2 : bfieldsMeasure subsub + belemsMeasure rest + 4
                                ≤ n + 1 := by
                              simp only [bsonMeasure, bfieldsMeasure, belemsMeasure] at hm
                              omega
                            have hstep : processExtensionElems
                                (BElems.cons (Bson.doc (BFields.cons kk (Bson.doc subsub)
                                  BFields.nil)) rest)
                                = (match (match scanSpecialKeys subsub ("", "", true) with
                                    | Except.error e => Except.error e
                                    | Except.ok (some early, _) => Except.ok early
                                    | Except.ok (none, _) =>
                                        match emitFields subsub with
                                        | Except.error e => Except.error e
                                        | Except.ok restJ => Except.ok (Json.obj
                                            (JFields.cons "url" (Json.str kk) restJ))) with
                                  | Except.error e => (Except.error e : Except String JElems)
                                  | Except.ok j =>
                                      match processExtensionElems rest with
                                      | Except.error e => Except.error e
                                      | Except.ok restJ => Except.ok (JElems.cons j restJ)) := by
                              rw [processExtensionElems.eq_def]
                            replace h := hstep.symm.trans h
                            cases hsc : scanSpecialKeys subsub ("", "", true) with
                            | error er => rw [hsc] at h; cases h
                            | ok sres =>
                                rw [hsc] at h
                                obtain ⟨early?, acc⟩ := sres
                                cases early? with
                                | some early =>
                                    cases hre : processExtensionElems rest with
                                    | error er => rw [hre] at h; cases h
                                    | ok restJ =>
                                        rw [hre] at h
                                        cases h
                                        have hj := (scanSpecialKeys_props
                                          (bfieldsMeasure subsub) subsub le_rfl
                                          "" "" true _ hsc).2 early rfl
                                        have hr := ihE rest (by omega) restJ hre
                                        show (jsonNoStripped early
                                          && jelemsNoStripped restJ) = true
                                        rw [hj, hr]
                                        rfl
                                | none =>
                                    cases hem : emitFields subsub with
                                    | error er => rw [hem] at h; cases h
                                    | ok fieldsJ =>
                                        rw [hem] at h
                                        cases hre : processExtensionElems rest with
                                        | error er => rw [hre] at h; cases h
                                        | ok restJ2 =>
                                            rw [hre] at h
                                            cases h
                                            have hf := ihA subsub (by omega) fieldsJ hem
                                            have hr := ihE rest (by omega) restJ2 hre
                                            show ((!strippedKey "url"
                                              && jsonNoStripped (Json.str kk)
                                              && jfieldsNoStripped fieldsJ)
                                              && jelemsNoStripped restJ2) = true
                                            rw [hf, hr]
                                            rfl
      · -- processIncludedFields
        intro f hf out h
        cases f with
        | nil => cases h; rfl
        | cons k v rest =>
            have hm : 1 + bsonMeasure v + bfieldsMeasure rest ≤ n + 1 := hf
            replace h := (processIncludedFields_cons k v rest).symm.trans h
            by_cases hdi : docIncluded k = true
            · rw [if_pos hdi] at h
              cases v with
              | str s => cases h
              | int m => cases h
              | double tok => cases h
              | instant tok => cases h
              | bool b => cases h
              | null => cases h
              | doc f2 => cases h
              | arr a =>
                  have hma : belemsMeasure a ≤ n := by
                    have hm2 : bsonMeasure (Bson.arr a) = 1 + belemsMeasure a := rfl
                    omega
                  replace h : (match processIncludedElems a with
                      | Except.error e => (Except.error e : Except String (Option (List Json)))
                      | Except.ok none => Except.ok none
                      | Except.ok (some docs) =>
                          match processIncludedFields rest with
                          | Except.error e => Except.error e
                          | Except.ok none => Except.ok none
                          | Except.ok (some more) => Except.ok (some (docs ++ more)))
                      = Except.ok out := h
                  cases hie : processIncludedElems a with
                  | error er => rw [hie] at h; cases h
                  | ok oDocs =>
                      rw [hie] at h
                      cases oDocs with
                      | none => cases h; rfl
                      | some docs =>
                          cases hif : processIncludedFields rest with
                          | error er => rw [hif] at h; cases h
                          | ok oMore =>
                              rw [hif] at h
                              cases oMore with
                              | none => cases h; rfl
                              | some more =>
                                  cases h
                                  have hd := ihG a hma (some docs) hie
                                  have hmore := ihF rest (by omega) (some more) hif
                                  simp only [Option.getD_some] at hd hmore ⊢
                                  simp [List.all_append, hd, hmore]
            · rw [if_neg hdi] at h
              exact ihF rest (by omega) out h
      · -- processIncludedElems
        intro e he out h
        cases e with
        | nil => cases h; rfl
        | cons hd rest =>
            have hm : 1 + bsonMeasure hd + belemsMeasure rest ≤ n + 1 := he
            cases hd with
            | doc ff =>
                have hstep : processIncludedElems (BElems.cons (Bson.doc ff) rest)
                    = (match (match decryptBSONCheck ff with
                        | Except.error e => Except.error e
                        | Except.ok () =>
                            match processIncludedFields ff with
                            | Except.error e => Except.error e
                            | Except.ok included =>
                                match processValue (Bson.doc ff) with
                                | Except.error e => Except.error e
                                | Except.ok j => Except.ok (j, included.getD [])) with
                      | Except.error e => (Except.error e : Except String (Option (List Json)))
                      | Except.ok (j, nested) =>
                          if nested.length > 0 then Except.ok none
                          else match processIncludedElems rest with
                            | Except.error e => Except.error e
                            | Except.ok none => Except.ok none
                            | Except.ok (some more) => Except.ok (some (j :: more))) := by
                  rw [processIncludedElems.eq_def]
                replace h := hstep.symm.trans h
                cases hdc : decryptBSONCheck ff with
                | error er => rw [hdc] at h; cases h
                | ok u =>
                    cases u
                    rw [hdc] at h
                    cases hif : processIncludedFields ff with
                    | error er => rw [hif] at h; cases h
                    | ok included =>
                        rw [hif] at h
                        cases hpv : processValue (Bson.doc ff) with
                        | error er => rw [hpv] at h; cases h
                        | ok j =>
                            rw [hpv] at h
                            replace h : (if (included.getD []).length > 0
                                then (Except.ok none : Except String (Option (List Json)))
                                else match processIncludedElems rest with
                                  | Except.error e => Except.error e
                                  | Except.ok none => Except.ok none
                                  | Except.ok (some more) => Except.ok (some (j :: more)))
                                = Except.ok out := h
                            by_cases hlen : (included.getD []).length > 0
                            · rw [if_pos hlen] at h
                              cases h
                              rfl
                            · rw [if_neg hlen] at h
                              cases hre : processIncludedElems rest with
                              | error er => rw [hre] at h; cases h
                              | ok oMore =>
                                  rw [hre] at h
                                  cases oMore with
                                  | none => cases h; rfl
                                  | some more =>
                                      cases h
                                      have hj := ihB (.doc ff) (by omega) j hpv
                                      have hr := ihG rest (by omega) (some more) hre
                                      simp only [Option.getD_some] at hr ⊢
                                      simp [hj, hr]
            | str s =>
                have hstep : processIncludedElems (BElems.cons (Bson.str s) rest)
                    = (match processIncludedElems rest with
                      | Except.error e => (Except.error e : Except String (Option (List Json)))
                      | Except.ok none => Except.ok none
                      | Except.ok (some more) => Except.ok (some (Json.obj .nil :: more))) := by
                  rw [processIncludedElems.eq_def]
                replace h := hstep.symm.trans h
                cases hre : processIncludedElems rest with
                | error er => rw [hre] at h; cases h
                | ok oMore =>
                    rw [hre] at h
                    cases oMore with
                    | none => cases h; rfl
                    | some more =>
                        cases h
                        have hr := ihG rest (by omega) (some more) hre
                        simp only [Option.getD_some] at hr ⊢
                        simp [jsonNoStripped, jfieldsNoStripped, hr]
            | int m =>
                have hstep : processIncludedElems (BElems.cons (Bson.int m) rest)
                    = (match processIncludedElems rest with
                      | Except.error e => (Except.error e : Except String (Option (List Json)))
                      | Except.ok none => Except.ok none
                      | Except.ok (some more) => Except.ok (some (Json.obj .nil :: more))) := by
                  rw [processIncludedElems.eq_def]
                replace h := hstep.symm.trans h
                cases hre : processIncludedElems rest with
                | error er => rw [hre] at h; cases h
                | ok oMore =>
                    rw [hre] at h
                    cases oMore with
                    | none => cases h; rfl
                    | some more =>
                        cases h
                        have hr := ihG rest (by omega) (some more) hre
                        simp only [Option.getD_some] at hr ⊢
                        simp [jsonNoStripped, jfieldsNoStripped, hr]
            | double tok =>
                have hstep : processIncludedElems (BElems.cons (Bson.double tok) rest)
                    = (match processIncludedElems rest with
                      | Except.error e => (Except.error e : Except String (Option (List Json)))
                      | Except.ok none => Except.ok none
                      | Except.ok (some more) => Except.ok (some (Json.obj .nil :: more))) := by
                  rw [processIncludedElems.eq_def]
                replace h := hstep.symm.trans h
                cases hre : processIncludedElems rest with
                | error er => rw [hre] at h; cases h
                | ok oMore =>
                    rw [hre] at h
                    cases oMore with
                    | none => cases h; rfl
                    | some more =>
                        cases h
                        have hr := ihG rest (by omega) (some more) hre
                        simp only [Option.getD_some] at hr ⊢
                        simp [jsonNoStripped, jfieldsNoStripped, hr]
            | instant tok =>
                have hstep : processIncludedElems (BElems.cons (Bson.instant tok) rest)
                    = (match processIncludedElems rest with
                      | Except.error e => (Except.error e : Except String (Option (List Json)))
                      | Except.ok none => Except.ok none
                      | Except.ok (some more) => Except.ok (some (Json.obj .nil :: more))) := by
                  rw [processIncludedElems.eq_def]
                replace h := hstep.symm.trans h
                cases hre : processIncludedElems rest with
                | error er => rw [hre] at h; cases h
                | ok oMore =>
                    rw [hre] at h
                    cases oMore with
                    | none => cases h; rfl
                    | some more =>
                        cases h
                        have hr := ihG rest (by omega) (some more) hre
                        simp only [Option.getD_some] at hr ⊢
                        simp [jsonNoStripped, jfieldsNoStripped, hr]
            | bool b =>
                have hstep : processIncludedElems (BElems.cons (Bson.bool b) rest)
                    = (match processIncludedElems rest with
                      | Except.error e => (Except.error e : Except String (Option (List Json)))
                      | Except.ok none => Except.ok none
                      | Except.ok (some more) => Except.ok (some (Json.obj .nil :: more))) := by
                  rw [processIncludedElems.eq_def]
                replace h := hstep.symm.trans h
                cases hre : processIncludedElems rest with
                | error er => rw [hre] at h; cases h
                | ok oMore =>
                    rw [hre] at h
                    cases oMore with
                    | none => cases h; rfl
                    | some more =>
                        cases h
                        have hr := ihG rest (by omega) (some more) hre
                        simp only [Option.getD_some] at hr ⊢
                        simp [jsonNoStripped, jfieldsNoStripped, hr]
            | null =>
                have hstep : processIncludedElems (BElems.cons Bson.null rest)
                    = (match processIncludedElems rest with
                      | Except.error e => (Except.error e : Except String (Option (List Json)))
                      | Except.ok none => Except.ok none
                      | Except.ok (some more) => Except.ok (some (Json.obj .nil :: more))) := by
                  rw [processIncludedElems.eq_def]
                replace h := hstep.symm.trans h
                cases hre : processIncludedElems rest with
                | error er => rw [hre] at h; cases h
                | ok oMore =>
                    rw [hre] at h
                    cases oMore with
                    | none => cases h; rfl
                    | some more =>
                        cases h
                        have hr := ihG rest (by omega) (some more) hre
                        simp only [Option.getD_some] at hr ⊢
                        simp [jsonNoStripped, jfieldsNoStripped, hr]
            | arr a =>
                have hstep : processIncludedElems (BElems.cons (Bson.arr a) rest)
                    = (match processIncludedElems rest with
                      | Except.error e => (Except.error e : Except String (Option (List Json)))
                      | Except.ok none => Except.ok none
                      | Except.ok (some more) => Except.ok (some (Json.obj .nil :: more))) := by
                  rw [processIncludedElems.eq_def]
                replace h := hstep.symm.trans h
                cases hre : processIncludedElems rest with
                | error er => rw [hre] at h; cases h
                | ok oMore =>
                    rw [hre] at h
                    cases oMore with
                    | none => cases h; rfl
                    | some more =>
                        cases h
                        have hr := ihG rest (by omega) (some more) hre
                        simp only [Option.getD_some] at hr ⊢
                        simp [jsonNoStripped, jfieldsNoStripped, hr]

/-- C10: for every stored document accepted by the egress conversion, no
object key anywhere in the emitted JSON (main document or satellite included
documents) is one of the internal derived keys reference__id,
reference__type, reference__external, or prefixed _included, _revIncluded or
_lookup: the index-only fields are always stripped. -/
theorem C10_no_stripped_keys (d : BFields) (j : Json) (included : List Json)
    (h : ConvertGoFhirBSONToJSON d = .ok (j, included)) :
    jsonNoStripped j = true ∧ included.all (fun x => jsonNoStripped x) = true := by
  replace h : (match decryptBSONCheck d with
      | Except.error e => Except.error e
      | Except.ok () =>
          match processIncludedFields d with
          | Except.error e => Except.error e
          | Except.ok inc =>
              match processDocument d with
              | Except.error e => Except.error e
              | Except.ok j2 => Except.ok (j2, inc.getD []))
      = Except.ok (j, included) := h
  cases hdc : decryptBSONCheck d with
  | error e => rw [hdc] at h; cases h
  | ok u =>
      cases u
      rw [hdc] at h
      cases hif : processIncludedFields d with
      | error e => rw [hif] at h; cases h
      | ok inc =>
          rw [hif] at h
          cases hpd : processDocument d with
          | error e => rw [hpd] at h; cases h
          | ok j2 =>
              rw [hpd] at h
              cases h
              constructor
              · exact (egress_no_stripped (bsonMeasure (.doc d))).2.1 (.doc d) le_rfl _ hpd
              · exact (egress_no_stripped (bfieldsMeasure d)).2.2.2.2.2.1 d le_rfl _ hif

/-- C10 witness: a stored document carrying _id, a reference__id index field
and a name egresses to a JSON object holding only id and name. -/
theorem C10_no_stripped_keys_witness :
    jsonNoStripped (.obj (.cons "id" (.str "1") (.cons "name" (.str "bob") .nil))) = true ∧
    ([] : List Json).all (fun x => jsonNoStripped x) = true :=
  C10_no_stripped_keys
    (.cons "_id" (.str "1") (.cons "reference__id" (.str "x")
      (.cons "name" (.str "bob") .nil)))
    (.obj (.cons "id" (.str "1") (.cons "name" (.str "bob") .nil))) [] (by decide)

end ClinicalManager
